import Mathlib

/-!
Verification development for the `budget` forward ledger projection engine.

The development shallowly embeds the projection core of the repository:

* `budget/services.py` — the calendar/recurrence engine
  (`add_months`, `month_diff`, `weekly_series`, `monthly_series`,
  `semi_monthly_series`, `occurrences_between`);
* `budget/cli.py` — the ledger merge (`classify_priority`, `ledger_rows`);
* `budget/services_irregular.py` — the irregular-category learner and
  forecaster (`learn_irregular_state`, `update_irregular_state`,
  `forecast_irregular`, `percentile`).

Python `date` objects are embedded as year/month/day triples with
`Date.toOrd` mirroring CPython's `date.toordinal` (days-before-year in the
closed form used by CPython's `datetime` module); `datetime` values are a
date plus the microseconds elapsed within the day.  Python `while` loops are
embedded as fuel recursion; at every call site the fuel passed is proved
sufficient under the stated preconditions (see the termination theorems).
Float arithmetic is idealised as exact rational arithmetic; the
transcendental helpers `math.log` and the square root inside
`statistics.stdev` are abstracted as parameters `rlog`/`rsqrt` since no
claim inspects the values they produce, only whether they are present.
-/

/-- Python `calendar.isleap`. -/
def isleap (y : ℕ) : Bool := y % 4 == 0 && (y % 100 != 0 || y % 400 == 0)

/-- Python `calendar.monthrange(y, m)[1]`: the number of days of month `m`
of year `y`. -/
def daysInMonth (y m : ℕ) : ℕ :=
  if m = 2 then (if isleap y then 29 else 28)
  else if m = 4 ∨ m = 6 ∨ m = 9 ∨ m = 11 then 30
  else 31

/-- Python `date` objects: a year/month/day triple. -/
structure Date where
  year : ℕ
  month : ℕ
  day : ℕ
deriving DecidableEq, Repr

/-- The triples that denote actual Python `date` objects (Python's `date`
constructor validates its arguments). -/
def Date.Valid (d : Date) : Prop :=
  1 ≤ d.year ∧ 1 ≤ d.month ∧ d.month ≤ 12 ∧ 1 ≤ d.day ∧
    d.day ≤ daysInMonth d.year d.month

instance (d : Date) : Decidable d.Valid := by
  unfold Date.Valid; infer_instance

/-- Days in all years before `year`, as computed by CPython's
`datetime._days_before_year` (proleptic Gregorian calendar). -/
def daysBeforeYear (year : ℕ) : ℕ :=
  (year - 1) * 365 + (year - 1) / 4 - (year - 1) / 100 + (year - 1) / 400

/-- Days in all months of year `y` strictly before month `m`
(CPython `datetime._days_before_month`, here in recursive form). -/
def daysBeforeMonth (y : ℕ) : ℕ → ℕ
  | 0 => 0
  | 1 => 0
  | m + 1 => daysBeforeMonth y m + daysInMonth y m

/-- Python `date.toordinal()`: day number 1 is 0001-01-01. -/
def Date.toOrd (d : Date) : ℕ :=
  daysBeforeYear d.year + daysBeforeMonth d.year d.month + d.day

/-- The day after `d` (the effect of Python `d + timedelta(days=1)` on the
year/month/day fields). -/
def nextDay (d : Date) : Date :=
  if d.day < daysInMonth d.year d.month then ⟨d.year, d.month, d.day + 1⟩
  else if d.month < 12 then ⟨d.year, d.month + 1, 1⟩
  else ⟨d.year + 1, 1, 1⟩

/-- Python `d + timedelta(days=n)` for `n ≥ 0`. -/
def addDays (d : Date) : ℕ → Date
  | 0 => d
  | n + 1 => addDays (nextDay d) n

/-- The day before `d` (Python `d - timedelta(days=1)`). -/
def prevDay (d : Date) : Date :=
  if 1 < d.day then ⟨d.year, d.month, d.day - 1⟩
  else if 1 < d.month then ⟨d.year, d.month - 1, daysInMonth d.year (d.month - 1)⟩
  else ⟨d.year - 1, 12, 31⟩

/-- Python `d - timedelta(days=n)` for `n ≥ 0`. -/
def subDays (d : Date) : ℕ → Date
  | 0 => d
  | n + 1 => subDays (prevDay d) n

/-- Python `d + timedelta(days=k)` for a signed `k`. -/
def addDaysI (d : Date) (k : ℤ) : Date :=
  if 0 ≤ k then addDays d k.toNat else subDays d (-k).toNat

-- ## Basic calendar lemmas

theorem isleap_iff (y : ℕ) :
    isleap y = true ↔ (y % 4 = 0 ∧ (y % 100 ≠ 0 ∨ y % 400 = 0)) := by
  simp [isleap, Bool.and_eq_true, Bool.or_eq_true, beq_iff_eq, bne_iff_ne]

theorem daysInMonth_pos (y m : ℕ) : 1 ≤ daysInMonth y m := by
  unfold daysInMonth; split
  · split <;> omega
  · split <;> omega

theorem daysInMonth_le (y m : ℕ) : daysInMonth y m ≤ 31 := by
  unfold daysInMonth; split
  · split <;> omega
  · split <;> omega

theorem daysBeforeMonth_succ (y m : ℕ) (h : 1 ≤ m) :
    daysBeforeMonth y (m + 1) = daysBeforeMonth y m + daysInMonth y m := by
  match m, h with
  | m + 1, _ => rfl

theorem daysBeforeMonth_mono (y : ℕ) {m₁ m₂ : ℕ} (h : m₁ ≤ m₂) :
    daysBeforeMonth y m₁ ≤ daysBeforeMonth y m₂ := by
  obtain ⟨k, rfl⟩ := Nat.exists_eq_add_of_le h
  clear h
  induction k with
  | zero => exact Nat.le_refl _
  | succ k ih =>
    refine ih.trans ?_
    rcases Nat.eq_zero_or_pos (m₁ + k) with h0 | h0
    · simp [h0, daysBeforeMonth]
    · rw [show m₁ + (k + 1) = (m₁ + k) + 1 by omega,
        daysBeforeMonth_succ y (m₁ + k) h0]
      omega

/-- The twelve months of year `y` hold `365` days, plus one in a leap year. -/
theorem daysBeforeMonth_13 (y : ℕ) :
    daysBeforeMonth y 13 = 365 + (if isleap y then 1 else 0) := by
  by_cases h : isleap y <;>
    simp [daysBeforeMonth, daysInMonth, h]

set_option maxHeartbeats 1600000 in
theorem daysBeforeYear_succ (y : ℕ) (hy : 1 ≤ y) :
    daysBeforeYear (y + 1) = daysBeforeYear y + 365 + (if isleap y then 1 else 0) := by
  obtain ⟨z, rfl⟩ : ∃ z, y = z + 1 := ⟨y - 1, by omega⟩
  unfold daysBeforeYear
  simp only [Nat.add_sub_cancel]
  by_cases hl : isleap (z + 1) = true
  · have ha := (isleap_iff (z + 1)).mp hl
    rw [if_pos hl]
    omega
  · have ha : ¬ ((z + 1) % 4 = 0 ∧ ((z + 1) % 100 ≠ 0 ∨ (z + 1) % 400 = 0)) :=
      fun c => hl ((isleap_iff (z + 1)).mpr c)
    rw [if_neg hl]
    omega

theorem daysBeforeYear_add_le {y₁ y₂ : ℕ} (h1 : 1 ≤ y₁) (h : y₁ < y₂) :
    daysBeforeYear y₁ + 365 + (if isleap y₁ then 1 else 0) ≤ daysBeforeYear y₂ := by
  induction y₂ with
  | zero => omega
  | succ y ih =>
    rcases Nat.lt_or_ge y₁ y with h' | h'
    · have := daysBeforeYear_succ y (by omega)
      have := ih h'
      omega
    · have : y₁ = y := by omega
      subst this
      rw [daysBeforeYear_succ y₁ h1]

theorem daysInMonth_12 (y : ℕ) : daysInMonth y 12 = 31 := by
  simp [daysInMonth]

/-- Ordinals respect the lexicographic year/month order on valid-shaped
dates: a date of an earlier month precedes any date of a later month. -/
theorem toOrd_lt_of_ym_lt {y₁ m₁ d₁ y₂ m₂ d₂ : ℕ}
    (h1y : 1 ≤ y₁) (h1m : 1 ≤ m₁) (h1m' : m₁ ≤ 12)
    (hd1 : d₁ ≤ daysInMonth y₁ m₁) (hd2 : 1 ≤ d₂)
    (hlex : y₁ < y₂ ∨ (y₁ = y₂ ∧ m₁ < m₂)) :
    daysBeforeYear y₁ + daysBeforeMonth y₁ m₁ + d₁ <
      daysBeforeYear y₂ + daysBeforeMonth y₂ m₂ + d₂ := by
  have hstep : daysBeforeYear y₁ + daysBeforeMonth y₁ m₁ + d₁ ≤
      daysBeforeYear y₁ + daysBeforeMonth y₁ (m₁ + 1) := by
    rw [daysBeforeMonth_succ y₁ m₁ h1m]; omega
  rcases hlex with hy | ⟨rfl, hm⟩
  · have h13 : daysBeforeMonth y₁ (m₁ + 1) ≤ daysBeforeMonth y₁ 13 :=
      daysBeforeMonth_mono y₁ (by omega)
    have hyy := daysBeforeYear_add_le h1y hy
    have h365 := daysBeforeMonth_13 y₁
    omega
  · have hmono : daysBeforeMonth y₁ (m₁ + 1) ≤ daysBeforeMonth y₁ m₂ :=
      daysBeforeMonth_mono y₁ (by omega)
    omega

theorem valid_nextDay {d : Date} (h : d.Valid) : (nextDay d).Valid := by
  obtain ⟨h1, h2, h3, h4, h5⟩ := h
  unfold nextDay
  split
  · exact ⟨h1, h2, h3, by show 1 ≤ d.day + 1; omega,
      by show d.day + 1 ≤ daysInMonth d.year d.month; rename_i hday; omega⟩
  · split
    · rename_i hday hmon
      exact ⟨h1, by show 1 ≤ d.month + 1; omega, by show d.month + 1 ≤ 12; omega,
        by show 1 ≤ 1; omega,
        by show 1 ≤ daysInMonth d.year (d.month + 1); exact daysInMonth_pos _ _⟩
    · exact ⟨by show 1 ≤ d.year + 1; omega, by show (1:ℕ) ≤ 1; omega,
        by show (1:ℕ) ≤ 12; omega, by show (1:ℕ) ≤ 1; omega,
        by show 1 ≤ daysInMonth (d.year + 1) 1; exact daysInMonth_pos _ _⟩

theorem toOrd_nextDay {d : Date} (h : d.Valid) :
    (nextDay d).toOrd = d.toOrd + 1 := by
  obtain ⟨h1, h2, h3, h4, h5⟩ := h
  unfold nextDay
  split
  · show daysBeforeYear d.year + daysBeforeMonth d.year d.month + (d.day + 1)
      = daysBeforeYear d.year + daysBeforeMonth d.year d.month + d.day + 1
    omega
  · rename_i hday
    split
    · rename_i hmon
      show daysBeforeYear d.year + daysBeforeMonth d.year (d.month + 1) + 1
        = daysBeforeYear d.year + daysBeforeMonth d.year d.month + d.day + 1
      rw [daysBeforeMonth_succ d.year d.month h2]
      omega
    · rename_i hmon
      have hdim := daysInMonth_12 d.year
      have hm12 : d.month = 12 := by omega
      have hd31 : d.day = 31 := by
        rw [hm12] at h5 hday
        omega
      show daysBeforeYear (d.year + 1) + daysBeforeMonth (d.year + 1) 1 + 1
        = daysBeforeYear d.year + daysBeforeMonth d.year d.month + d.day + 1
      rw [hm12, hd31]
      have e0 : daysBeforeMonth (d.year + 1) 1 = 0 := rfl
      have e1 := daysBeforeYear_succ d.year h1
      have h13 := daysBeforeMonth_13 d.year
      have hsucc : daysBeforeMonth d.year 13 = daysBeforeMonth d.year 12 + 31 := by
        rw [show (13:ℕ) = 12 + 1 by rfl, daysBeforeMonth_succ d.year 12 (by omega),
          daysInMonth_12 d.year]
      by_cases hly : isleap d.year = true
      · rw [if_pos hly] at e1 h13; omega
      · rw [if_neg hly] at e1 h13; omega

theorem valid_addDays {d : Date} (h : d.Valid) (n : ℕ) : (addDays d n).Valid := by
  induction n generalizing d with
  | zero => exact h
  | succ n ih => exact ih (valid_nextDay h)

theorem toOrd_addDays {d : Date} (h : d.Valid) (n : ℕ) :
    (addDays d n).toOrd = d.toOrd + n := by
  induction n generalizing d with
  | zero => rfl
  | succ n ih =>
    show (addDays (nextDay d) n).toOrd = _
    rw [ih (valid_nextDay h), toOrd_nextDay h]
    omega

-- ## The recurrence engine (`budget/services.py`)

/-- services.py `add_months`, for a non-negative month offset (the
repository only ever calls it with one).  Day-of-month is clamped to the
target month's length. -/
def add_months (d : Date) (months : ℕ) : Date :=
  ⟨d.year + (d.month - 1 + months) / 12,
   (d.month - 1 + months) % 12 + 1,
   min d.day (daysInMonth (d.year + (d.month - 1 + months) / 12)
     ((d.month - 1 + months) % 12 + 1))⟩

/-- services.py `month_diff`: whole months from `a` to `b`, negative if
`b < a`. -/
def month_diff (a b : Date) : ℤ :=
  if b.day < a.day then ((b.year : ℤ) - a.year) * 12 + ((b.month : ℤ) - a.month) - 1
  else ((b.year : ℤ) - a.year) * 12 + ((b.month : ℤ) - a.month)

/-- The `while d <= end` loop of services.py `weekly_series`, as fuel
recursion (every call site passes provably sufficient fuel). -/
def weeklyLoop (stepDays : ℕ) (endD : Date) : ℕ → Date → List Date
  | 0, _ => []
  | fuel + 1, d =>
    if d.toOrd ≤ endD.toOrd then d :: weeklyLoop stepDays endD fuel (addDays d stepDays)
    else []

/-- The stride count `k = max(0, (start - anchor).days // step_days)` of
services.py `weekly_series` (Python floor division). -/
def weeklyK (anchor start₀ : Date) (stepDays : ℕ) : ℕ :=
  (max 0 (Int.fdiv ((start₀.toOrd : ℤ) - anchor.toOrd) stepDays)).toNat

/-- The first candidate occurrence of services.py `weekly_series`:
`d = anchor + k*step_days`, advanced one stride if still below `start`. -/
def weeklyStart (anchor start₀ : Date) (stepDays : ℕ) : Date :=
  if (addDays anchor (weeklyK anchor start₀ stepDays * stepDays)).toOrd < start₀.toOrd
  then addDays (addDays anchor (weeklyK anchor start₀ stepDays * stepDays)) stepDays
  else addDays anchor (weeklyK anchor start₀ stepDays * stepDays)

/-- services.py `weekly_series` (`step_days` is 7 for weekly, 14 for
biweekly), materialised as a list as `occurrences_between` does. -/
def weekly_series (anchor start₀ endD : Date) (stepDays : ℕ) : List Date :=
  weeklyLoop stepDays endD
    (endD.toOrd + 1 - (weeklyStart anchor start₀ stepDays).toOrd)
    (weeklyStart anchor start₀ stepDays)

/-- The `while d < start` catch-up loop of services.py `monthly_series`:
advances the month counter until the occurrence is on or after `start`. -/
def monthlyCatch (anchor start₀ : Date) : ℕ → ℕ → ℕ
  | 0, k => k
  | fuel + 1, k =>
    if (add_months anchor k).toOrd < start₀.toOrd then monthlyCatch anchor start₀ fuel (k + 1)
    else k

/-- The `while d <= end` emission loop of services.py `monthly_series`. -/
def monthlyLoop (anchor : Date) (stepM : ℕ) (endD : Date) : ℕ → ℕ → List Date
  | 0, _ => []
  | fuel + 1, k =>
    if (add_months anchor k).toOrd ≤ endD.toOrd then
      add_months anchor k :: monthlyLoop anchor stepM endD fuel (k + stepM)
    else []

/-- The initial month counter `k = max(0, month_diff(anchor, start))` of
services.py `monthly_series`. -/
def monthlyK0 (anchor start₀ : Date) : ℕ := (max 0 (month_diff anchor start₀)).toNat

/-- The month counter after the `while d < start` catch-up loop of
services.py `monthly_series`. -/
def monthlyK1 (anchor start₀ : Date) : ℕ :=
  monthlyCatch anchor start₀
    (start₀.toOrd + 1 - (add_months anchor (monthlyK0 anchor start₀)).toOrd)
    (monthlyK0 anchor start₀)

/-- services.py `monthly_series` (`step_months` is 1, 3, 6 or 12). -/
def monthly_series (anchor start₀ endD : Date) (stepM : ℕ) : List Date :=
  monthlyLoop anchor stepM endD
    (endD.toOrd + 1 - (add_months anchor (monthlyK1 anchor start₀)).toOrd)
    (monthlyK1 anchor start₀)

/-- The month-iteration loop of services.py `semi_monthly_series`: for each
month overlapping the window, emit day 1 and day `min 15 last` when they
fall inside `[start, end]`. -/
def semiMonthlyLoop (start₀ endD : Date) : ℕ → Date → List Date
  | 0, _ => []
  | fuel + 1, d =>
    if d.toOrd ≤ endD.toOrd then
      (([1, min 15 (daysInMonth d.year d.month)].map
          (fun day => (⟨d.year, d.month, day⟩ : Date))).filter
        (fun occ => start₀.toOrd ≤ occ.toOrd && occ.toOrd ≤ endD.toOrd))
        ++ semiMonthlyLoop start₀ endD fuel (add_months d 1)
    else []

/-- services.py `semi_monthly_series`: days 1 and 15 of each month
overlapping the window, anchor-independent. -/
def semi_monthly_series (start₀ endD : Date) : List Date :=
  semiMonthlyLoop start₀ endD
    (endD.toOrd + 1 - (⟨start₀.year, start₀.month, 1⟩ : Date).toOrd)
    ⟨start₀.year, start₀.month, 1⟩

/-- Python `str.lower()` (over the string's characters). -/
def pyLower (s : String) : String := ⟨s.data.map Char.toLower⟩

/-- Python `str.strip()`: drop leading and trailing whitespace. -/
def pyStrip (s : String) : String :=
  ⟨((s.data.dropWhile Char.isWhitespace).reverse.dropWhile Char.isWhitespace).reverse⟩

/-- services.py `occurrences_between`: dispatch on the normalised frequency
string (`frequency.strip().lower()`); an unknown frequency or an empty
window yields no occurrences. -/
def occurrences_between (anchor : Date) (frequency : String) (start₀ endD : Date) :
    List Date :=
  if endD.toOrd < start₀.toOrd then []
  else if pyLower (pyStrip frequency) = "weekly" then weekly_series anchor start₀ endD 7
  else if pyLower (pyStrip frequency) = "biweekly" then weekly_series anchor start₀ endD 14
  else if pyLower (pyStrip frequency) = "monthly" then monthly_series anchor start₀ endD 1
  else if pyLower (pyStrip frequency) = "quarterly" then monthly_series anchor start₀ endD 3
  else if pyLower (pyStrip frequency) = "semi annually" then monthly_series anchor start₀ endD 6
  else if pyLower (pyStrip frequency) = "annually" then monthly_series anchor start₀ endD 12
  else if pyLower (pyStrip frequency) = "semi monthly" then semi_monthly_series start₀ endD
  else []

-- ## Properties of the recurrence engine

theorem weeklyLoop_mem {stepDays : ℕ} {endD : Date} :
    ∀ (fuel : ℕ) (d : Date), d.Valid →
      ∀ x ∈ weeklyLoop stepDays endD fuel d,
        (d.toOrd ≤ x.toOrd ∧ x.toOrd ≤ endD.toOrd) ∧ x.Valid := by
  intro fuel
  induction fuel with
  | zero => intro d _ x hx; simp [weeklyLoop] at hx
  | succ fuel ih =>
    intro d hd x hx
    unfold weeklyLoop at hx
    split at hx
    · rcases List.mem_cons.mp hx with rfl | hx'
      · exact ⟨⟨le_refl _, by assumption⟩, hd⟩
      · have h := ih (addDays d stepDays) (valid_addDays hd stepDays) x hx'
        have hord := toOrd_addDays hd stepDays
        exact ⟨⟨by omega, h.1.2⟩, h.2⟩
    · simp at hx

theorem weeklyLoop_pairwise {stepDays : ℕ} (hstep : 1 ≤ stepDays) {endD : Date} :
    ∀ (fuel : ℕ) (d : Date), d.Valid →
      List.Pairwise (fun a b : Date => a.toOrd < b.toOrd)
        (weeklyLoop stepDays endD fuel d) := by
  intro fuel
  induction fuel with
  | zero => intro d _; simp [weeklyLoop]
  | succ fuel ih =>
    intro d hd
    unfold weeklyLoop
    split
    · refine List.pairwise_cons.mpr ⟨?_, ih _ (valid_addDays hd stepDays)⟩
      intro x hx
      have h := weeklyLoop_mem fuel (addDays d stepDays) (valid_addDays hd stepDays) x hx
      have hord := toOrd_addDays hd stepDays
      omega
    · exact List.Pairwise.nil

theorem weeklyStart_valid {anchor start₀ : Date} {stepDays : ℕ} (ha : anchor.Valid) :
    (weeklyStart anchor start₀ stepDays).Valid := by
  unfold weeklyStart
  split
  · exact valid_addDays (valid_addDays ha _) _
  · exact valid_addDays ha _

/-- The initial candidate of `weekly_series` is on or after `start`. -/
theorem weeklyStart_ge {anchor start₀ : Date} {stepDays : ℕ}
    (ha : anchor.Valid) (hstep : 1 ≤ stepDays) :
    start₀.toOrd ≤ (weeklyStart anchor start₀ stepDays).toOrd := by
  have hSZ : (0 : ℤ) < (stepDays : ℤ) := by exact_mod_cast hstep
  unfold weeklyStart weeklyK
  by_cases hSA : (start₀.toOrd : ℤ) ≤ (anchor.toOrd : ℤ)
  · have hq : Int.fdiv ((start₀.toOrd : ℤ) - anchor.toOrd) stepDays ≤ 0 := by
      rw [Int.fdiv_eq_ediv _ (by omega)]
      calc ((start₀.toOrd : ℤ) - anchor.toOrd) / stepDays
          ≤ 0 / (stepDays : ℤ) := Int.ediv_le_ediv hSZ (by omega)
        _ = 0 := Int.zero_ediv _
    have hk : (max 0 (Int.fdiv ((start₀.toOrd : ℤ) - anchor.toOrd) stepDays)).toNat = 0 := by
      omega
    rw [hk]
    have h0 : (0 : ℕ) * stepDays = 0 := by omega
    rw [h0]
    have : addDays anchor 0 = anchor := rfl
    rw [this]
    split <;> omega
  · push_neg at hSA
    have hq0 : 0 ≤ Int.fdiv ((start₀.toOrd : ℤ) - anchor.toOrd) stepDays := by
      rw [Int.fdiv_eq_ediv _ (by omega)]
      exact Int.ediv_nonneg (by omega) (by omega)
    have hmax : max 0 (Int.fdiv ((start₀.toOrd : ℤ) - anchor.toOrd) stepDays)
        = ((start₀.toOrd : ℤ) - anchor.toOrd) / stepDays := by
      rw [Int.fdiv_eq_ediv _ (by omega)] at hq0 ⊢
      omega
    rw [hmax]
    have hdm := Int.ediv_add_emod ((start₀.toOrd : ℤ) - anchor.toOrd) stepDays
    have hr0 : 0 ≤ ((start₀.toOrd : ℤ) - anchor.toOrd) % stepDays :=
      Int.emod_nonneg _ (by omega)
    have hrlt : ((start₀.toOrd : ℤ) - anchor.toOrd) % stepDays < stepDays :=
      Int.emod_lt_of_pos _ hSZ
    have hq0' : 0 ≤ ((start₀.toOrd : ℤ) - anchor.toOrd) / (stepDays : ℤ) :=
      Int.ediv_nonneg (by omega) (by omega)
    have hd0 : ((addDays anchor ((((start₀.toOrd : ℤ) - anchor.toOrd) / stepDays).toNat * stepDays)).toOrd : ℤ)
        = (start₀.toOrd : ℤ) - ((start₀.toOrd : ℤ) - anchor.toOrd) % stepDays := by
      rw [toOrd_addDays ha]
      push_cast
      rw [Int.toNat_of_nonneg hq0']
      linear_combination hdm
    have hstep2 : ((addDays (addDays anchor ((((start₀.toOrd : ℤ) - anchor.toOrd) / stepDays).toNat * stepDays)) stepDays).toOrd : ℤ)
        = ((addDays anchor ((((start₀.toOrd : ℤ) - anchor.toOrd) / stepDays).toNat * stepDays)).toOrd : ℤ) + stepDays := by
      rw [toOrd_addDays (valid_addDays ha _)]
      push_cast
      ring
    split
    · rename_i hlt
      omega
    · rename_i hge
      push_neg at hge
      omega

theorem weekly_series_pairwise {anchor start₀ endD : Date} {stepDays : ℕ}
    (ha : anchor.Valid) (hstep : 1 ≤ stepDays) :
    List.Pairwise (fun a b : Date => a.toOrd < b.toOrd)
      (weekly_series anchor start₀ endD stepDays) :=
  weeklyLoop_pairwise hstep _ _ (weeklyStart_valid ha)

theorem weekly_series_mem {anchor start₀ endD : Date} {stepDays : ℕ}
    (ha : anchor.Valid) (hstep : 1 ≤ stepDays) :
    ∀ x ∈ weekly_series anchor start₀ endD stepDays,
      start₀.toOrd ≤ x.toOrd ∧ x.toOrd ≤ endD.toOrd := by
  intro x hx
  have h := weeklyLoop_mem _ _ (weeklyStart_valid ha) x hx
  have hge := @weeklyStart_ge anchor start₀ stepDays ha hstep
  exact ⟨by omega, h.1.2⟩

theorem daysInMonth_ge_28 (y m : ℕ) : 28 ≤ daysInMonth y m := by
  unfold daysInMonth; split
  · split <;> omega
  · split <;> omega

theorem valid_add_months {d : Date} (h : d.Valid) (k : ℕ) : (add_months d k).Valid := by
  obtain ⟨h1, h2, h3, h4, h5⟩ := h
  refine ⟨?_, ?_, ?_, ?_, ?_⟩
  · show 1 ≤ d.year + (d.month - 1 + k) / 12
    omega
  · show 1 ≤ (d.month - 1 + k) % 12 + 1
    omega
  · show (d.month - 1 + k) % 12 + 1 ≤ 12
    omega
  · show 1 ≤ min d.day (daysInMonth (d.year + (d.month - 1 + k) / 12)
      ((d.month - 1 + k) % 12 + 1))
    exact le_min h4 (daysInMonth_pos _ _)
  · show min d.day (daysInMonth (d.year + (d.month - 1 + k) / 12)
      ((d.month - 1 + k) % 12 + 1)) ≤ daysInMonth (d.year + (d.month - 1 + k) / 12)
      ((d.month - 1 + k) % 12 + 1)
    exact min_le_right _ _

/-- Adding strictly more months yields a strictly later occurrence: the
day-of-month clamp never collapses two distinct months. -/
theorem add_months_toOrd_lt {d : Date} (h : d.Valid) {k k' : ℕ} (hkk : k < k') :
    (add_months d k).toOrd < (add_months d k').toOrd := by
  obtain ⟨h1, h2, h3, h4, h5⟩ := h
  show daysBeforeYear (d.year + (d.month - 1 + k) / 12)
      + daysBeforeMonth (d.year + (d.month - 1 + k) / 12) ((d.month - 1 + k) % 12 + 1)
      + min d.day (daysInMonth (d.year + (d.month - 1 + k) / 12) ((d.month - 1 + k) % 12 + 1))
    < daysBeforeYear (d.year + (d.month - 1 + k') / 12)
      + daysBeforeMonth (d.year + (d.month - 1 + k') / 12) ((d.month - 1 + k') % 12 + 1)
      + min d.day (daysInMonth (d.year + (d.month - 1 + k') / 12) ((d.month - 1 + k') % 12 + 1))
  refine toOrd_lt_of_ym_lt (by omega) (by omega) (by omega)
    (min_le_right _ _) (le_min h4 (daysInMonth_pos _ _)) ?_
  omega

theorem add_months_toOrd_le {d : Date} (h : d.Valid) {k k' : ℕ} (hkk : k ≤ k') :
    (add_months d k).toOrd ≤ (add_months d k').toOrd := by
  rcases Nat.eq_or_lt_of_le hkk with rfl | hlt
  · exact le_refl _
  · exact le_of_lt (add_months_toOrd_lt ⟨h.1, h.2.1, h.2.2.1, h.2.2.2.1, h.2.2.2.2⟩ hlt)

/-- With adequate fuel the `while d < start` loop of `monthly_series`
reaches an occurrence on or after `start`. -/
theorem monthlyCatch_ge {anchor start₀ : Date} (ha : anchor.Valid) :
    ∀ (fuel k : ℕ), start₀.toOrd ≤ (add_months anchor k).toOrd + fuel →
      start₀.toOrd ≤ (add_months anchor (monthlyCatch anchor start₀ fuel k)).toOrd := by
  intro fuel
  induction fuel with
  | zero =>
    intro k h
    unfold monthlyCatch
    omega
  | succ fuel ih =>
    intro k h
    unfold monthlyCatch
    split
    · apply ih
      have := add_months_toOrd_lt ha (show k < k + 1 by omega)
      omega
    · rename_i hge
      omega

theorem monthlyK1_ge {anchor start₀ : Date} (ha : anchor.Valid) :
    start₀.toOrd ≤ (add_months anchor (monthlyK1 anchor start₀)).toOrd := by
  unfold monthlyK1
  apply monthlyCatch_ge ha
  omega

theorem monthlyLoop_mem {anchor : Date} {stepM : ℕ} {endD : Date} :
    ∀ (fuel k : ℕ), ∀ x ∈ monthlyLoop anchor stepM endD fuel k,
      ∃ k', k ≤ k' ∧ x = add_months anchor k' ∧ x.toOrd ≤ endD.toOrd := by
  intro fuel
  induction fuel with
  | zero => intro k x hx; simp [monthlyLoop] at hx
  | succ fuel ih =>
    intro k x hx
    unfold monthlyLoop at hx
    split at hx
    · rcases List.mem_cons.mp hx with rfl | hx'
      · exact ⟨k, le_refl _, rfl, by assumption⟩
      · obtain ⟨k', hk1, hk2, hk3⟩ := ih (k + stepM) x hx'
        exact ⟨k', by omega, hk2, hk3⟩
    · simp at hx

theorem monthlyLoop_pairwise {anchor : Date} (ha : anchor.Valid) {stepM : ℕ}
    (hstep : 1 ≤ stepM) {endD : Date} :
    ∀ (fuel k : ℕ),
      List.Pairwise (fun a b : Date => a.toOrd < b.toOrd)
        (monthlyLoop anchor stepM endD fuel k) := by
  intro fuel
  induction fuel with
  | zero => intro k; simp [monthlyLoop]
  | succ fuel ih =>
    intro k
    unfold monthlyLoop
    split
    · refine List.pairwise_cons.mpr ⟨?_, ih (k + stepM)⟩
      intro x hx
      obtain ⟨k', hk1, rfl, _⟩ := monthlyLoop_mem fuel (k + stepM) x hx
      exact add_months_toOrd_lt ha (by omega)
    · exact List.Pairwise.nil

theorem monthly_series_pairwise {anchor start₀ endD : Date} {stepM : ℕ}
    (ha : anchor.Valid) (hstep : 1 ≤ stepM) :
    List.Pairwise (fun a b : Date => a.toOrd < b.toOrd)
      (monthly_series anchor start₀ endD stepM) :=
  monthlyLoop_pairwise ha hstep _ _

theorem monthly_series_mem {anchor start₀ endD : Date} {stepM : ℕ}
    (ha : anchor.Valid) :
    ∀ x ∈ monthly_series anchor start₀ endD stepM,
      (∃ k', x = add_months anchor k') ∧
        start₀.toOrd ≤ x.toOrd ∧ x.toOrd ≤ endD.toOrd := by
  intro x hx
  obtain ⟨k', hk1, rfl, hk3⟩ := monthlyLoop_mem _ _ x hx
  have h1 := @monthlyK1_ge anchor start₀ ha
  have h2 := add_months_toOrd_le ha hk1
  exact ⟨⟨k', rfl⟩, by omega, hk3⟩

/-- Stepping one month from the first of a month lands on the first of the
next month, strictly later in the year/month order. -/
theorem add_months_one_first {d : Date} (h : d.Valid) (hday : d.day = 1) :
    (add_months d 1).day = 1 ∧ (add_months d 1).Valid ∧
      (d.year < (add_months d 1).year ∨
        (d.year = (add_months d 1).year ∧ d.month < (add_months d 1).month)) := by
  obtain ⟨h1, h2, h3, h4, h5⟩ := h
  refine ⟨?_, valid_add_months ⟨h1, h2, h3, h4, h5⟩ 1, ?_⟩
  · show min d.day (daysInMonth (d.year + (d.month - 1 + 1) / 12)
      ((d.month - 1 + 1) % 12 + 1)) = 1
    have := daysInMonth_pos (d.year + (d.month - 1 + 1) / 12) ((d.month - 1 + 1) % 12 + 1)
    omega
  · show d.year < d.year + (d.month - 1 + 1) / 12 ∨
      (d.year = d.year + (d.month - 1 + 1) / 12 ∧ d.month < (d.month - 1 + 1) % 12 + 1)
    omega

theorem semiMonthlyLoop_mem {start₀ endD : Date} :
    ∀ (fuel : ℕ) (d : Date), d.Valid → d.day = 1 →
      ∀ x ∈ semiMonthlyLoop start₀ endD fuel d,
        (d.year < x.year ∨ (d.year = x.year ∧ d.month ≤ x.month)) ∧
        1 ≤ x.day ∧ x.day ≤ daysInMonth x.year x.month ∧
        start₀.toOrd ≤ x.toOrd ∧ x.toOrd ≤ endD.toOrd := by
  intro fuel
  induction fuel with
  | zero => intro d _ _ x hx; simp [semiMonthlyLoop] at hx
  | succ fuel ih =>
    intro d hd hday x hx
    have hdim := daysInMonth_ge_28 d.year d.month
    unfold semiMonthlyLoop at hx
    split at hx
    · rcases List.mem_append.mp hx with hx1 | hx2
      · obtain ⟨hxmem, hxp⟩ := List.mem_filter.mp hx1
        simp only [List.mem_map, List.mem_cons, List.not_mem_nil, or_false] at hxmem
        simp only [Bool.and_eq_true, decide_eq_true_eq] at hxp
        obtain ⟨day, hdmem, rfl⟩ := hxmem
        refine ⟨Or.inr ⟨rfl, le_refl _⟩, ?_, ?_, hxp.1, hxp.2⟩
        · show 1 ≤ day
          rcases hdmem with rfl | rfl <;> omega
        · show day ≤ daysInMonth d.year d.month
          rcases hdmem with rfl | rfl <;> omega
      · obtain ⟨hday', hvalid', hlex⟩ := add_months_one_first hd hday
        obtain ⟨hx1, hx2', hx3, hx4, hx5⟩ := ih (add_months d 1) hvalid' hday' x hx2
        exact ⟨by omega, hx2', hx3, hx4, hx5⟩
    · simp at hx

theorem semiMonthlyLoop_pairwise {start₀ endD : Date} :
    ∀ (fuel : ℕ) (d : Date), d.Valid → d.day = 1 →
      List.Pairwise (fun a b : Date => a.toOrd < b.toOrd)
        (semiMonthlyLoop start₀ endD fuel d) := by
  intro fuel
  induction fuel with
  | zero => intro d _ _; simp [semiMonthlyLoop]
  | succ fuel ih =>
    intro d hd hday
    have hdim := daysInMonth_ge_28 d.year d.month
    obtain ⟨hday', hvalid', hlex⟩ := add_months_one_first hd hday
    unfold semiMonthlyLoop
    split
    · refine List.pairwise_append.mpr ⟨?_, ih (add_months d 1) hvalid' hday', ?_⟩
      · apply List.Pairwise.filter
        simp only [List.map_cons, List.map_nil]
        refine List.pairwise_cons.mpr ⟨?_, List.pairwise_singleton _ _⟩
        intro x hx
        simp only [List.mem_cons, List.not_mem_nil, or_false] at hx
        subst hx
        show Date.toOrd ⟨d.year, d.month, 1⟩ <
          Date.toOrd ⟨d.year, d.month, min 15 (daysInMonth d.year d.month)⟩
        show daysBeforeYear d.year + daysBeforeMonth d.year d.month + 1 <
          daysBeforeYear d.year + daysBeforeMonth d.year d.month
            + min 15 (daysInMonth d.year d.month)
        omega
      · intro a ha b hb
        obtain ⟨hamem, _⟩ := List.mem_filter.mp ha
        simp only [List.mem_map, List.mem_cons, List.not_mem_nil, or_false] at hamem
        obtain ⟨day, hdmem, rfl⟩ := hamem
        obtain ⟨hb1, hb2, hb3, _, _⟩ :=
          semiMonthlyLoop_mem fuel (add_months d 1) hvalid' hday' b hb
        show Date.toOrd ⟨d.year, d.month, day⟩ < b.toOrd
        show daysBeforeYear d.year + daysBeforeMonth d.year d.month + day < b.toOrd
        have hb' : b.toOrd = daysBeforeYear b.year + daysBeforeMonth b.year b.month + b.day := rfl
        rw [hb']
        obtain ⟨hv1, hv2, hv3, hv4, hv5⟩ := hd
        refine toOrd_lt_of_ym_lt hv1 hv2 hv3 ?_ hb2 ?_
        · rcases hdmem with rfl | rfl <;> omega
        · omega
    · exact List.Pairwise.nil

theorem semi_monthly_series_pairwise {start₀ endD : Date} (hs : start₀.Valid) :
    List.Pairwise (fun a b : Date => a.toOrd < b.toOrd)
      (semi_monthly_series start₀ endD) := by
  unfold semi_monthly_series
  apply semiMonthlyLoop_pairwise
  · exact ⟨hs.1, hs.2.1, hs.2.2.1, le_refl 1, daysInMonth_pos _ _⟩
  · rfl

theorem semi_monthly_series_mem {start₀ endD : Date} (hs : start₀.Valid) :
    ∀ x ∈ semi_monthly_series start₀ endD,
      start₀.toOrd ≤ x.toOrd ∧ x.toOrd ≤ endD.toOrd := by
  intro x hx
  unfold semi_monthly_series at hx
  have h := semiMonthlyLoop_mem _ _
    (show Date.Valid ⟨start₀.year, start₀.month, 1⟩ from
      ⟨hs.1, hs.2.1, hs.2.2.1, le_refl 1, daysInMonth_pos _ _⟩) rfl x hx
  exact ⟨h.2.2.2.1, h.2.2.2.2⟩

-- ## Claim C2 and C3

/-- C2: `occurrences_between(anchor, frequency, start, end)` is a pure,
deterministic function: it returns `[]` whenever `start > end` or the
frequency string is unrecognised, and otherwise returns a strictly
increasing list of dates, each inside the inclusive range `[start, end]`.
Determinism is the first (definitional) conjunct: the embedding is a
function, so equal inputs give equal outputs. -/
theorem C2_recurrence_determinism
    (anchor : Date) (frequency : String) (start₀ endD : Date)
    (ha : anchor.Valid) (hs : start₀.Valid) :
    (occurrences_between anchor frequency start₀ endD
      = occurrences_between anchor frequency start₀ endD) ∧
    (endD.toOrd < start₀.toOrd → occurrences_between anchor frequency start₀ endD = []) ∧
    (pyLower (pyStrip frequency) ∉ (["weekly", "biweekly", "monthly", "quarterly",
        "semi annually", "annually", "semi monthly"] : List String) →
      occurrences_between anchor frequency start₀ endD = []) ∧
    List.Pairwise (fun a b : Date => a.toOrd < b.toOrd)
      (occurrences_between anchor frequency start₀ endD) ∧
    (∀ x ∈ occurrences_between anchor frequency start₀ endD,
      start₀.toOrd ≤ x.toOrd ∧ x.toOrd ≤ endD.toOrd) := by
  refine ⟨rfl, ?_, ?_, ?_, ?_⟩
  · intro h
    unfold occurrences_between
    rw [if_pos h]
  · intro hno
    simp only [List.mem_cons, List.not_mem_nil, or_false, not_or] at hno
    obtain ⟨n1, n2, n3, n4, n5, n6, n7⟩ := hno
    unfold occurrences_between
    split_ifs <;> rfl
  · unfold occurrences_between
    split_ifs
    · exact List.Pairwise.nil
    · exact weekly_series_pairwise ha (by omega)
    · exact weekly_series_pairwise ha (by omega)
    · exact monthly_series_pairwise ha (by omega)
    · exact monthly_series_pairwise ha (by omega)
    · exact monthly_series_pairwise ha (by omega)
    · exact monthly_series_pairwise ha (by omega)
    · exact semi_monthly_series_pairwise hs
    · exact List.Pairwise.nil
  · intro x hx
    unfold occurrences_between at hx
    split_ifs at hx
    · simp at hx
    · exact weekly_series_mem ha (by omega) x hx
    · exact weekly_series_mem ha (by omega) x hx
    · exact (monthly_series_mem ha x hx).2
    · exact (monthly_series_mem ha x hx).2
    · exact (monthly_series_mem ha x hx).2
    · exact (monthly_series_mem ha x hx).2
    · exact semi_monthly_series_mem hs x hx
    · simp at hx

/-- Witness for C2 at a concrete input. -/
theorem C2_recurrence_determinism_witness :
    Date.Valid ⟨2023, 1, 31⟩ ∧ Date.Valid ⟨2023, 2, 1⟩ ∧
    (∀ x ∈ occurrences_between ⟨2023, 1, 31⟩ "monthly" ⟨2023, 2, 1⟩ ⟨2023, 5, 31⟩,
      (⟨2023, 2, 1⟩ : Date).toOrd ≤ x.toOrd ∧ x.toOrd ≤ (⟨2023, 5, 31⟩ : Date).toOrd) :=
  ⟨by decide, by decide,
    (C2_recurrence_determinism ⟨2023, 1, 31⟩ "monthly" ⟨2023, 2, 1⟩ ⟨2023, 5, 31⟩
      (by decide) (by decide)).2.2.2.2⟩

/-- C3 as stated is false on the code: `add_months` clamps the day-of-month
with `min(d.day, monthrange(...))`, so an anchor on the last day of a 30-day
month (2023-04-30) produces 2023-05-30, not the last day of May. -/
theorem C3_month_end_counterexample :
    (⟨2023, 4, 30⟩ : Date).Valid ∧
    (⟨2023, 4, 30⟩ : Date).day = daysInMonth 2023 4 ∧
    ¬ (∀ x ∈ occurrences_between ⟨2023, 4, 30⟩ "monthly" ⟨2023, 5, 1⟩ ⟨2023, 5, 31⟩,
        x.day = daysInMonth x.year x.month) := by
  refine ⟨by decide, by decide, ?_⟩
  intro hall
  exact absurd (hall ⟨2023, 5, 30⟩ (by decide)) (by decide)

/-- C3 amended: for a month-stride schedule whose anchor is on day 31 (the
last day of a 31-day month), every occurrence falls on the last day of its
own month, 28/29/30/31-day months included; e.g. anchor 2023-01-31 yields
2023-02-28, 2023-03-31, 2023-04-30, 2023-05-31.  (The original claim also
covered anchors on the last day of shorter months; those are refuted by
`C3_month_end_counterexample`.) -/
theorem C3_month_end_stickiness_day31
    (anchor : Date) (frequency : String) (start₀ endD : Date)
    (ha : anchor.Valid) (hday : anchor.day = 31)
    (hf : pyLower (pyStrip frequency) ∈
      (["monthly", "quarterly", "semi annually", "annually"] : List String)) :
    (∀ x ∈ occurrences_between anchor frequency start₀ endD,
      x.day = daysInMonth x.year x.month) ∧
    occurrences_between ⟨2023, 1, 31⟩ "monthly" ⟨2023, 2, 1⟩ ⟨2023, 5, 31⟩
      = [⟨2023, 2, 28⟩, ⟨2023, 3, 31⟩, ⟨2023, 4, 30⟩, ⟨2023, 5, 31⟩] := by
  constructor
  · have hmonth : ∀ stepM, ∀ x ∈ monthly_series anchor start₀ endD stepM,
        x.day = daysInMonth x.year x.month := by
      intro stepM x hx
      obtain ⟨⟨k, rfl⟩, -, -⟩ := monthly_series_mem ha x hx
      show min anchor.day (daysInMonth (anchor.year + (anchor.month - 1 + k) / 12)
          ((anchor.month - 1 + k) % 12 + 1))
        = daysInMonth (anchor.year + (anchor.month - 1 + k) / 12)
          ((anchor.month - 1 + k) % 12 + 1)
      have := daysInMonth_le (anchor.year + (anchor.month - 1 + k) / 12)
        ((anchor.month - 1 + k) % 12 + 1)
      rw [hday]
      omega
    simp only [List.mem_cons, List.not_mem_nil, or_false] at hf
    intro x hx
    unfold occurrences_between at hx
    split_ifs at hx with h1 h2 h3 h4 h5 h6 h7 h8
    · simp at hx
    · rcases hf with hf | hf | hf | hf <;> rw [hf] at h2 <;> simp at h2
    · rcases hf with hf | hf | hf | hf <;> rw [hf] at h3 <;> simp at h3
    · exact hmonth 1 x hx
    · exact hmonth 3 x hx
    · exact hmonth 6 x hx
    · exact hmonth 12 x hx
    · rcases hf with hf | hf | hf | hf <;> rw [hf] at h8 <;> simp at h8
    · rcases hf with hf | hf | hf | hf <;> tauto
  · decide

/-- Witness for the amended C3 at the concrete anchor of the spec's example. -/
theorem C3_month_end_stickiness_day31_witness :
    Date.Valid ⟨2023, 1, 31⟩ ∧ (⟨2023, 1, 31⟩ : Date).day = 31 ∧
    pyLower (pyStrip "monthly") ∈
      (["monthly", "quarterly", "semi annually", "annually"] : List String) ∧
    (∀ x ∈ occurrences_between ⟨2023, 1, 31⟩ "monthly" ⟨2023, 2, 1⟩ ⟨2023, 5, 31⟩,
      x.day = daysInMonth x.year x.month) :=
  ⟨by decide, by decide, by decide,
    (C3_month_end_stickiness_day31 ⟨2023, 1, 31⟩ "monthly" ⟨2023, 2, 1⟩ ⟨2023, 5, 31⟩
      (by decide) (by decide) (by decide)).1⟩

-- ## The ledger merge (`budget/cli.py`)

/-- Microseconds per day. -/
def usPerDay : ℕ := 86400000000

/-- Python `datetime`: a date plus the microseconds elapsed within the day. -/
structure DateTime where
  date : Date
  micro : ℕ
deriving DecidableEq, Repr

/-- The absolute microsecond timestamp; Python `datetime` comparison is
comparison of these values. -/
def DateTime.ts (t : DateTime) : ℕ := t.date.toOrd * usPerDay + t.micro

/-- Python `t + timedelta(microseconds=k)` (rolling over midnight). -/
def dtAddMicros (t : DateTime) (k : ℕ) : DateTime :=
  ⟨addDays t.date ((t.micro + k) / usPerDay), (t.micro + k) % usPerDay⟩

/-- The `_source_type` tag that cli.py `ledger_rows` attaches to merged
events (absent means a posted transaction). -/
inductive Src
  | posted
  | recurring
  | irregular
deriving DecidableEq, Repr

/-- A transaction-like event in the merge of cli.py `ledger_rows`: posted
rows and the synthetic `Transaction` objects built for recurring occurrences
and irregular forecasts. -/
structure Ev where
  description : String
  amount : ℚ
  timestamp : DateTime
  src : Src
deriving DecidableEq

/-- cli.py `classify_priority`. -/
def classify_priority (t : Ev) : ℤ × ℤ :=
  match t.src with
  | .irregular => (50, 0)
  | .recurring => if 0 < t.amount then (20, 0) else (30, 0)
  | .posted => if 0 < t.amount then (20, 0) else (40, 0)

/-- The lexicographic sort key of cli.py line 889:
`(t.timestamp.date(), classify_priority(t)[0], classify_priority(t)[1],
t.timestamp)`. -/
def evKeyLE (a b : Ev) : Prop :=
  a.timestamp.date.toOrd < b.timestamp.date.toOrd ∨
    (a.timestamp.date.toOrd = b.timestamp.date.toOrd ∧
      ((classify_priority a).1 < (classify_priority b).1 ∨
        ((classify_priority a).1 = (classify_priority b).1 ∧
          ((classify_priority a).2 < (classify_priority b).2 ∨
            ((classify_priority a).2 = (classify_priority b).2 ∧
              a.timestamp.ts ≤ b.timestamp.ts)))))

instance : DecidableRel evKeyLE := fun a b => by unfold evKeyLE; infer_instance

instance : IsTotal Ev evKeyLE := ⟨by intro a b; unfold evKeyLE; omega⟩

instance : IsTrans Ev evKeyLE := ⟨by intro a b c; unfold evKeyLE; omega⟩

/-- Ordering by timestamp only (the `ORDER BY timestamp` of the posted
transaction query). -/
def evTsLE (a b : Ev) : Prop := a.timestamp.ts ≤ b.timestamp.ts

instance : DecidableRel evTsLE := fun a b => by unfold evTsLE; infer_instance

instance : IsTotal Ev evTsLE := ⟨by intro a b; unfold evTsLE; omega⟩

instance : IsTrans Ev evTsLE := ⟨by intro a b c; unfold evTsLE; omega⟩

/-- cli.py `LedgerRow`. -/
structure LedgerRow where
  timestamp : DateTime
  description : String
  amount : ℚ
  running : ℚ
deriving DecidableEq, Repr

/-- A stored posted transaction, as `ledger_rows` consumes it. -/
structure Posted where
  description : String
  amount : ℚ
  timestamp : DateTime
deriving DecidableEq, Repr

/-- A stored recurring schedule; `ledger_rows` uses `r.start_date.date()`,
so only the date part of the anchor is kept. -/
structure Recurring where
  description : String
  amount : ℚ
  start_date : Date
  frequency : String
deriving DecidableEq, Repr

/-- The stored balance snapshot (`Balance` row with id 1). -/
structure Balance where
  amount : ℚ
  timestamp : DateTime
deriving DecidableEq, Repr

def postedEv (p : Posted) : Ev := ⟨p.description, p.amount, p.timestamp, .posted⟩

/-- The `Transaction(description="Irregular", amount=-amt, ...)` series that
`ledger_rows` builds from the output of `irregular_daily_series` (only
nonzero amounts are materialised). -/
def irrEvents (irrForecast : List (Date × ℚ)) : List Ev :=
  irrForecast.filterMap fun da =>
    if da.2 ≠ 0 then some ⟨"Irregular", -da.2, ⟨da.1, 0⟩, .irregular⟩ else none

/-- The synthetic recurring occurrences that `ledger_rows` materialises via
`occurrences_between` over the planning window. -/
def synthEvents (recs : List Recurring) (planStart planEnd : Date) : List Ev :=
  recs.flatMap fun r =>
    (occurrences_between r.start_date r.frequency planStart planEnd).map fun occ =>
      ⟨r.description, r.amount, ⟨occ, 0⟩, .recurring⟩

/-- The in-place mutation of cli.py lines 890-891: each merged event's
timestamp gains `idx` microseconds, `idx` its position in the sorted list. -/
def perturb (l : List Ev) : List Ev :=
  l.mapIdx fun i t => { t with timestamp := dtAddMicros t.timestamp i }

/-- cli.py lines 893-898: `offset = bal_amt - total_before` where
`total_before` sums the amounts of the (already perturbed) events whose
timestamp is on or before the snapshot's. -/
def ledgerOffset (balAmt : ℚ) (balTs : DateTime) (events : List Ev) : ℚ :=
  balAmt - ((events.filter fun t => t.timestamp.ts ≤ balTs.ts).map fun t => t.amount).sum

/-- The emission loop of cli.py lines 900-905: walk the events, accumulate
the running sum, and emit each row with balance `running + offset`. -/
def rowsFrom (offset : ℚ) : ℚ → List Ev → List LedgerRow
  | _, [] => []
  | running, t :: ts =>
    ⟨t.timestamp, t.description, t.amount, running + t.amount + offset⟩ ::
      rowsFrom offset (running + t.amount) ts

/-- All intermediate stages of one `ledger_rows` call: the resolved balance
and planning window, the sorted merge (line 889), the events after the
in-place microsecond mutation (line 891), the anchor offset, and the emitted
rows. -/
structure LedgerOut where
  balAmt : ℚ
  balTs : DateTime
  planStart : Date
  planEnd : Date
  merged : List Ev
  events : List Ev
  offset : ℚ
  rows : List LedgerRow

/-- cli.py lines 828-829: the date of the earliest posted transaction, the
snapshot's date when there is none. -/
def ledgerEarliest (posted : List Posted) (balTs : DateTime) : Date :=
  match (List.insertionSort evTsLE (posted.map postedEv)).head? with
  | some t => t.timestamp.date
  | none => balTs.date

/-- The tail of the pipeline, from the sorted merge on: perturb, compute the
offset, filter to the window, and emit rows. -/
def ledgerAssemble (balAmt : ℚ) (balTs : DateTime) (planStart planEnd : Date)
    (merged : List Ev) : LedgerOut :=
  ⟨balAmt, balTs, planStart, planEnd, merged, perturb merged,
    ledgerOffset balAmt balTs (perturb merged),
    rowsFrom (ledgerOffset balAmt balTs (perturb merged)) 0
      ((perturb merged).filter fun t =>
        planStart.toOrd ≤ t.timestamp.date.toOrd ∧ t.timestamp.date.toOrd ≤ planEnd.toOrd)⟩

/-- The merge pipeline of cli.py lines 833-905 for a resolved window. -/
def ledgerMergeRun (balAmt : ℚ) (balTs : DateTime) (posted : List Posted)
    (recs : List Recurring) (irrForecast : List (Date × ℚ))
    (planStart planEnd : Date) : LedgerOut :=
  ledgerAssemble balAmt balTs planStart planEnd
    (List.insertionSort evKeyLE
      (List.insertionSort evTsLE (posted.map postedEv)
        ++ irrEvents irrForecast ++ synthEvents recs planStart planEnd))

/-- The default planning horizon of cli.py line 831:
`date.today() + timedelta(days=3650)` (about ten years).  Marked
irreducible only to keep symbolic definitional unfolding shallow; the
kernel still evaluates it on concrete input. -/
@[irreducible] def ledgerDefaultPlanEnd (today : Date) : Date := addDays today 3650

/-- The body of `ledger_rows` once the balance amount and timestamp are
resolved (cli.py lines 823-825): an explicit window is used as given,
otherwise the default window runs from the earlier of the first posted
transaction and the snapshot date to `today + 3650` days. -/
def ledgerRun (balAmt : ℚ) (balTs : DateTime) (posted : List Posted)
    (recs : List Recurring) (irrForecast : List (Date × ℚ)) (today : Date)
    (planStart? planEnd? : Option Date) : LedgerOut :=
  match planStart?, planEnd? with
  | some ps, some pe => ledgerMergeRun balAmt balTs posted recs irrForecast ps pe
  | _, _ =>
    ledgerMergeRun balAmt balTs posted recs irrForecast
      (if (ledgerEarliest posted balTs).toOrd ≤ balTs.date.toOrd
        then ledgerEarliest posted balTs else balTs.date)
      (ledgerDefaultPlanEnd today)

/-- cli.py `ledger_rows`.  The persisted store is passed in explicitly: the
balance row, the posted transactions, the recurring schedules, and the
output of `irregular_daily_series` over the irregular-forecast window
(`ledger_rows` only iterates that output); `today` stands for
`date.today()`.  The generator is modelled as the full list of rows it
yields, together with the intermediate stages a caller can observe. -/
def ledger_rows (bal : Option Balance) (posted : List Posted) (recs : List Recurring)
    (irrForecast : List (Date × ℚ)) (today : Date)
    (planStart? planEnd? : Option Date) : LedgerOut :=
  ledgerRun (match bal with | some b => b.amount | none => 0)
    (match bal with | some b => b.timestamp | none => ⟨today, 0⟩)
    posted recs irrForecast today planStart? planEnd?

-- ## Properties of the ledger merge

/-- A fixed default row (for proof-term-free indexing via `List.getD`). -/
def dfltRow : LedgerRow := ⟨⟨⟨1, 1, 1⟩, 0⟩, "", 0, 0⟩

theorem rowsFrom_length (offset : ℚ) :
    ∀ (l : List Ev) (running : ℚ),
      (rowsFrom offset running l).length = l.length := by
  intro l
  induction l with
  | nil => intro running; rfl
  | cons t ts ih => intro running; simp [rowsFrom, ih]

theorem rowsFrom_running (offset : ℚ) :
    ∀ (l : List Ev) (running : ℚ) (i : ℕ), i < (rowsFrom offset running l).length →
      ((rowsFrom offset running l).getD i dfltRow).running
        = running + (((rowsFrom offset running l).take (i + 1)).map
            (fun r => r.amount)).sum + offset := by
  intro l
  induction l with
  | nil => intro running i h; simp [rowsFrom] at h
  | cons t ts ih =>
    intro running i h
    cases i with
    | zero =>
      simp [rowsFrom]
    | succ i =>
      have hlen : i < (rowsFrom offset (running + t.amount) ts).length := by
        simp only [rowsFrom, List.length_cons] at h
        omega
      have hih := ih (running + t.amount) i hlen
      simp only [rowsFrom, List.getD_cons_succ, List.take_succ_cons, List.map_cons,
        List.sum_cons] at hih ⊢
      rw [hih]
      ring

set_option maxRecDepth 4000 in
/-- Unfolding equations for the observable stages of `ledger_rows`. -/
theorem ledger_rows_stages (bal : Option Balance) (posted : List Posted)
    (recs : List Recurring) (irrForecast : List (Date × ℚ)) (today : Date)
    (planStart? planEnd? : Option Date) :
    ((ledger_rows bal posted recs irrForecast today planStart? planEnd?).events
      = perturb (ledger_rows bal posted recs irrForecast today planStart? planEnd?).merged) ∧
    ((ledger_rows bal posted recs irrForecast today planStart? planEnd?).offset
      = ledgerOffset
          (ledger_rows bal posted recs irrForecast today planStart? planEnd?).balAmt
          (ledger_rows bal posted recs irrForecast today planStart? planEnd?).balTs
          (ledger_rows bal posted recs irrForecast today planStart? planEnd?).events) ∧
    ((ledger_rows bal posted recs irrForecast today planStart? planEnd?).rows
      = rowsFrom (ledger_rows bal posted recs irrForecast today planStart? planEnd?).offset 0
          ((ledger_rows bal posted recs irrForecast today planStart? planEnd?).events.filter
            fun t =>
              (ledger_rows bal posted recs irrForecast today planStart? planEnd?).planStart.toOrd
                  ≤ t.timestamp.date.toOrd
                ∧ t.timestamp.date.toOrd
                  ≤ (ledger_rows bal posted recs irrForecast today planStart? planEnd?).planEnd.toOrd)) ∧
    List.Sorted evKeyLE
      (ledger_rows bal posted recs irrForecast today planStart? planEnd?).merged := by
  rcases bal with _ | b <;> rcases planStart? with _ | ps <;> rcases planEnd? with _ | pe <;>
    exact ⟨rfl, rfl, rfl, List.sorted_insertionSort evKeyLE _⟩

theorem classify_priority_fst (a : Ev) :
    (classify_priority a).1 = if a.src = Src.irregular then 50
      else if 0 < a.amount then 20
      else if a.src = Src.recurring then 30 else 40 := by
  obtain ⟨d, amt, ts, s⟩ := a
  cases s <;> simp [classify_priority] <;> split_ifs <;> simp_all

theorem classify_priority_snd (a : Ev) : (classify_priority a).2 = 0 := by
  obtain ⟨d, amt, ts, s⟩ := a
  cases s <;> simp [classify_priority] <;> split_ifs <;> rfl

/-- What the per-day sort key guarantees between two same-day events in
sorted order: priorities are nondecreasing, within a priority class the
original timestamps are nondecreasing, credits (positive, non-irregular)
form a prefix of the day, and irregular events come last. -/
theorem evKeyLE_same_day_props {a b : Ev} (h : evKeyLE a b)
    (hd : a.timestamp.date = b.timestamp.date) :
    (classify_priority a).1 ≤ (classify_priority b).1 ∧
    ((classify_priority a).1 = (classify_priority b).1 →
      a.timestamp.ts ≤ b.timestamp.ts) ∧
    (0 < b.amount ∧ b.src ≠ Src.irregular →
      0 < a.amount ∧ a.src ≠ Src.irregular) ∧
    (a.src = Src.irregular → b.src = Src.irregular) := by
  have hto : a.timestamp.date.toOrd = b.timestamp.date.toOrd := by rw [hd]
  have h2a := classify_priority_snd a
  have h2b := classify_priority_snd b
  have hfa := classify_priority_fst a
  have hfb := classify_priority_fst b
  unfold evKeyLE at h
  refine ⟨by omega, fun he => by omega, ?_, ?_⟩
  · rintro ⟨hb1, hb2⟩
    rw [if_neg hb2, if_pos hb1] at hfb
    by_cases hai : a.src = Src.irregular
    · rw [if_pos hai] at hfa
      omega
    · rw [if_neg hai] at hfa
      by_cases haa : 0 < a.amount
      · exact ⟨haa, hai⟩
      · rw [if_neg haa] at hfa
        by_cases har : a.src = Src.recurring
        · rw [if_pos har] at hfa
          omega
        · rw [if_neg har] at hfa
          omega
  · intro hai
    rw [if_pos hai] at hfa
    by_cases hbi : b.src = Src.irregular
    · exact hbi
    · rw [if_neg hbi] at hfb
      split_ifs at hfb <;> omega

-- ## Claims C1, C4, C5, C6

/-- A fixed default event (for proof-term-free indexing via `List.getD`). -/
def dfltEv : Ev := ⟨"", 0, ⟨⟨1, 1, 1⟩, 0⟩, .posted⟩

/-- The scenario of spec §8.8: snapshot 100 at 2023-01-02, transactions
-10 at 2023-01-01 and +20 at 2023-01-03. -/
def c1Out : LedgerOut := ledger_rows (some ⟨100, ⟨⟨2023, 1, 2⟩, 0⟩⟩)
  [⟨"T1", -10, ⟨⟨2023, 1, 1⟩, 0⟩⟩, ⟨"T2", 20, ⟨⟨2023, 1, 3⟩, 0⟩⟩]
  [] [] ⟨2023, 1, 2⟩ (some ⟨2023, 1, 1⟩) (some ⟨2023, 2, 1⟩)

/-- C1: `ledger_rows` computes `offset = B - (sum of amounts of events
with timestamp ≤ T)` for the snapshot `(B, T)`, and every emitted row's
running balance is the cumulative sum of the emitted amounts up to and
including that row, plus the offset; in the §8.8 scenario the two rows
carry running balances 100 and 120. -/
theorem C1_running_balance_anchoring :
    (∀ (bal : Option Balance) (posted : List Posted) (recs : List Recurring)
      (irrForecast : List (Date × ℚ)) (today : Date) (planStart? planEnd? : Option Date)
      (out : LedgerOut),
      out = ledger_rows bal posted recs irrForecast today planStart? planEnd? →
        (out.offset = out.balAmt - ((out.events.filter fun t =>
            t.timestamp.ts ≤ out.balTs.ts).map fun t => t.amount).sum) ∧
        ∀ (i : ℕ), i < out.rows.length →
          (out.rows.getD i dfltRow).running
            = ((out.rows.take (i + 1)).map fun r => r.amount).sum + out.offset) ∧
    c1Out.rows.map (fun r => (r.timestamp.date, r.amount, r.running))
      = [(⟨2023, 1, 1⟩, -10, 100), (⟨2023, 1, 3⟩, 20, 120)] := by
  constructor
  · rintro bal posted recs irrForecast today planStart? planEnd? out rfl
    obtain ⟨hev, hoff, hrows, hsort⟩ :=
      ledger_rows_stages bal posted recs irrForecast today planStart? planEnd?
    constructor
    · rw [hoff]
      rfl
    · intro i h
      rw [hrows] at h ⊢
      rw [rowsFrom_running _ _ 0 i h]
      ring
  · show c1Out.rows.map (fun r => (r.timestamp.date, r.amount, r.running)) = _
    set_option maxRecDepth 200000 in with_unfolding_all decide

/-- Witness for C1: the first emitted row of the §8.8 scenario satisfies
the cumulative-sum characterisation. -/
theorem C1_running_balance_anchoring_witness :
    0 < c1Out.rows.length ∧
    (c1Out.rows.getD 0 dfltRow).running
      = ((c1Out.rows.take 1).map fun r => r.amount).sum + c1Out.offset := by
  have hlen : 0 < c1Out.rows.length := by
    set_option maxRecDepth 200000 in with_unfolding_all decide
  exact ⟨hlen,
    ((C1_running_balance_anchoring.1 (some ⟨100, ⟨⟨2023, 1, 2⟩, 0⟩⟩)
      [⟨"T1", -10, ⟨⟨2023, 1, 1⟩, 0⟩⟩, ⟨"T2", 20, ⟨⟨2023, 1, 3⟩, 0⟩⟩]
      [] [] ⟨2023, 1, 2⟩ (some ⟨2023, 1, 1⟩) (some ⟨2023, 2, 1⟩) c1Out rfl).2 0 hlen)⟩

/-- The scenario of spec §8.4: monthly Salary +1000 and Rent -500 both
anchored 2023-01-01, snapshot 0 at 2022-12-31, window January 2023. -/
def c4Out : LedgerOut := ledger_rows (some ⟨0, ⟨⟨2022, 12, 31⟩, 0⟩⟩) []
  [⟨"Salary", 1000, ⟨2023, 1, 1⟩, "monthly"⟩, ⟨"Rent", -500, ⟨2023, 1, 1⟩, "monthly"⟩]
  [] ⟨2023, 1, 1⟩ (some ⟨2023, 1, 1⟩) (some ⟨2023, 1, 31⟩)

/-- C4: among the merged events of one `ledger_rows` call, two events on
the same calendar date are ordered with nondecreasing `classify_priority`;
in particular credits (positive amount, posted or recurring) precede all
debits of the day, irregular events come last, and events of the same
priority class keep their original timestamp order.  The §8.4 scenario
produces the Salary row before the Rent row with running balances 1000 and
500. -/
theorem C4_same_day_ordering :
    (∀ (bal : Option Balance) (posted : List Posted) (recs : List Recurring)
      (irrForecast : List (Date × ℚ)) (today : Date) (planStart? planEnd? : Option Date)
      (out : LedgerOut),
      out = ledger_rows bal posted recs irrForecast today planStart? planEnd? →
        ∀ (i j : ℕ), i < out.merged.length → j < out.merged.length → i < j →
          (out.merged.getD i dfltEv).timestamp.date
              = (out.merged.getD j dfltEv).timestamp.date →
            (classify_priority (out.merged.getD i dfltEv)).1
                ≤ (classify_priority (out.merged.getD j dfltEv)).1 ∧
            ((classify_priority (out.merged.getD i dfltEv)).1
                = (classify_priority (out.merged.getD j dfltEv)).1 →
              (out.merged.getD i dfltEv).timestamp.ts
                ≤ (out.merged.getD j dfltEv).timestamp.ts) ∧
            (0 < (out.merged.getD j dfltEv).amount ∧
                (out.merged.getD j dfltEv).src ≠ Src.irregular →
              0 < (out.merged.getD i dfltEv).amount ∧
                (out.merged.getD i dfltEv).src ≠ Src.irregular) ∧
            ((out.merged.getD i dfltEv).src = Src.irregular →
              (out.merged.getD j dfltEv).src = Src.irregular)) ∧
    c4Out.rows.map (fun r => (r.description, r.amount, r.running))
      = [("Salary", 1000, 1000), ("Rent", -500, 500)] := by
  constructor
  · rintro bal posted recs irrForecast today planStart? planEnd? out rfl
    intro i j hi hj hij hd
    obtain ⟨-, -, -, hsort⟩ :=
      ledger_rows_stages bal posted recs irrForecast today planStart? planEnd?
    have hki := List.getD_eq_get _ dfltEv hi
    have hkj := List.getD_eq_get _ dfltEv hj
    rw [hki, hkj] at hd ⊢
    exact evKeyLE_same_day_props
      (hsort.rel_get_of_lt (show (⟨i, hi⟩ : Fin _) < ⟨j, hj⟩ from Fin.mk_lt_mk.mpr hij)) hd
  · show c4Out.rows.map (fun r => (r.description, r.amount, r.running)) = _
    set_option maxRecDepth 200000 in with_unfolding_all decide

/-- Witness for C4: the two §8.4 events share 2023-01-01 and the credit's
priority does not exceed the debit's. -/
theorem C4_same_day_ordering_witness :
    (0 < c4Out.merged.length ∧ 1 < c4Out.merged.length ∧
      (c4Out.merged.getD 0 dfltEv).timestamp.date
        = (c4Out.merged.getD 1 dfltEv).timestamp.date) ∧
    (classify_priority (c4Out.merged.getD 0 dfltEv)).1
      ≤ (classify_priority (c4Out.merged.getD 1 dfltEv)).1 := by
  have h0 : 0 < c4Out.merged.length := by
    set_option maxRecDepth 200000 in with_unfolding_all decide
  have h1 : 1 < c4Out.merged.length := by
    set_option maxRecDepth 200000 in with_unfolding_all decide
  have hd : (c4Out.merged.getD 0 dfltEv).timestamp.date
      = (c4Out.merged.getD 1 dfltEv).timestamp.date := by
    set_option maxRecDepth 200000 in with_unfolding_all decide
  exact ⟨⟨h0, h1, hd⟩,
    (C4_same_day_ordering.1 (some ⟨0, ⟨⟨2022, 12, 31⟩, 0⟩⟩) []
      [⟨"Salary", 1000, ⟨2023, 1, 1⟩, "monthly"⟩, ⟨"Rent", -500, ⟨2023, 1, 1⟩, "monthly"⟩]
      [] ⟨2023, 1, 1⟩ (some ⟨2023, 1, 1⟩) (some ⟨2023, 1, 31⟩) c4Out rfl
      0 1 h0 h1 (by omega) hd).1⟩

/-- The scenario of spec §8.9: weekly Rent -50 anchored 2023-01-01 and a
zero balance snapshot at 2023-01-01 midnight, no other data. -/
def c5Out : LedgerOut := ledger_rows (some ⟨0, ⟨⟨2023, 1, 1⟩, 0⟩⟩) []
  [⟨"Rent", -50, ⟨2023, 1, 1⟩, "weekly"⟩] [] ⟨2023, 1, 2⟩
  (some ⟨2023, 1, 1⟩) (some ⟨2023, 12, 31⟩)

/-- C5 as stated is false on the code: the first occurrence (2023-01-01
00:00:00.000000, microsecond index 0) is not after the snapshot timestamp
2023-01-01 00:00:00, so its -50 is absorbed into the offset and the first
two running balances are 0 and -50, not -50 and -100. -/
theorem C5_weekly_scenario_counterexample :
    ¬ ((c5Out.rows.take 2).map (fun r => (r.timestamp.date, r.running))
      = [(⟨2023, 1, 1⟩, -50), (⟨2023, 1, 8⟩, -100)]) := by
  set_option maxRecDepth 400000 in with_unfolding_all decide

/-- C5 amended: in the §8.9 scenario the first two rows are dated
2023-01-01 and 2023-01-08, but carry running balances 0 and -50: the
occurrence at the snapshot instant is counted into the offset, so the
balance right after it equals the snapshot amount. -/
theorem C5_weekly_scenario_amended :
    (c5Out.rows.take 2).map (fun r => (r.timestamp.date, r.running))
      = [(⟨2023, 1, 1⟩, 0), (⟨2023, 1, 8⟩, -50)] := by
  set_option maxRecDepth 400000 in with_unfolding_all decide

/-- C6: the claim that `ledger_rows` never mutates the persisted records is
right about the intent but wrong about the code: cli.py line 891 adds the
sort index as microseconds to `t.timestamp` in place, and the posted
`Transaction` objects fetched from the session are among the mutated
events.  At the §8.8 input, after the call the second posted transaction's
timestamp has gained one microsecond. -/
theorem C6_ledger_rows_mutates_posted_timestamps :
    ((c1Out.events.filter fun t => t.src = Src.posted).map fun t => t.timestamp)
      = [⟨⟨2023, 1, 1⟩, 0⟩, ⟨⟨2023, 1, 3⟩, 1⟩] ∧
    ¬ (((c1Out.events.filter fun t => t.src = Src.posted).map fun t => t.timestamp)
      = [⟨⟨2023, 1, 1⟩, 0⟩, ⟨⟨2023, 1, 3⟩, 0⟩]) := by
  constructor
  · set_option maxRecDepth 200000 in with_unfolding_all decide
  · set_option maxRecDepth 200000 in with_unfolding_all decide

-- ## The irregular-category learner (`budget/services_irregular.py`)

/-- An irregular category's learning parameters. -/
structure IrregularCategory where
  window_days : ℕ
  alpha : ℚ
deriving DecidableEq, Repr

/-- The learned statistics row for a category.  `weekday_probs` is stored
as a JSON string in the database; a well-formed stored value is modelled as
`some` of the decoded list and a missing, empty or malformed value as
`none` (the code's shape check re-validates the length in any case). -/
structure IrregularState where
  avg_gap_days : Option ℚ := none
  weekday_probs : Option (List ℚ) := none
  amount_mu : Option ℚ := none
  amount_sigma : Option ℚ := none
  median_amount : Option ℚ := none
  last_event_at : Option DateTime := none
deriving DecidableEq, Repr

/-- Python `t.timestamp.weekday()` (Monday is 0; ordinal 1 was a Monday). -/
def DateTime.weekday (t : DateTime) : ℕ := (t.date.toOrd + 6) % 7

/-- Python `statistics.mean` (callers guard against empty input). -/
def pyMean (l : List ℚ) : ℚ := l.sum / l.length

/-- Python `statistics.median` (callers guard against empty input). -/
def pyMedian (l : List ℚ) : ℚ :=
  if l.length % 2 = 1 then
    (List.insertionSort (fun a b : ℚ => a ≤ b) l).getD (l.length / 2) 0
  else
    ((List.insertionSort (fun a b : ℚ => a ≤ b) l).getD (l.length / 2 - 1) 0
      + (List.insertionSort (fun a b : ℚ => a ≤ b) l).getD (l.length / 2) 0) / 2

/-- Python `statistics.stdev` (sample standard deviation) with the square
root abstracted by `rsqrt`. -/
def pyStdev (rsqrt : ℚ → ℚ) (l : List ℚ) : ℚ :=
  rsqrt ((l.map fun x => (x - pyMean l) ^ 2).sum / ((l.length : ℚ) - 1))

/-- Python `(t2 - t1).total_seconds() / 86400.0`, exactly. -/
def dtGapDays (t1 t2 : DateTime) : ℚ := ((t2.ts : ℚ) - t1.ts) / (usPerDay : ℚ)

/-- Python `max(t.timestamp for t in txns)`. -/
def maxTimestamp (txns : List Posted) : Option DateTime :=
  txns.foldl (fun acc t =>
    match acc with
    | none => some t.timestamp
    | some m => if m.ts < t.timestamp.ts then some t.timestamp else some m) none

/-- Ordering of posted transactions by timestamp (the query's `ORDER BY`). -/
def pTsLE (a b : Posted) : Prop := a.timestamp.ts ≤ b.timestamp.ts

instance : DecidableRel pTsLE := fun a b => by unfold pTsLE; infer_instance

instance : IsTotal Posted pTsLE := ⟨by intro a b; unfold pTsLE; omega⟩

instance : IsTrans Posted pTsLE := ⟨by intro a b c; unfold pTsLE; omega⟩

/-- The clamped learn-window start of `learn_irregular_state`:
`end - timedelta(days=window_days)`, or the requested start if later. -/
def learnStart (windowDays : ℕ) (startT endT : DateTime) : DateTime :=
  if startT.ts < (⟨subDays endT.date windowDays, endT.micro⟩ : DateTime).ts
  then ⟨subDays endT.date windowDays, endT.micro⟩ else startT

/-- The transactions `learn_irregular_state` fits on: ordered by timestamp,
inside the clamped window, and matching the category's rules (the
rule-matching `match_category_id(...) == category_id` is abstracted as the
predicate `matchp` on descriptions). -/
def learnWindowTxns (windowDays : ℕ) (allTxns : List Posted)
    (matchp : String → Bool) (startT endT : DateTime) : List Posted :=
  ((List.insertionSort pTsLE allTxns).filter fun t =>
    (learnStart windowDays startT endT).ts ≤ t.timestamp.ts ∧ t.timestamp.ts ≤ endT.ts).filter
    fun t => matchp t.description

/-- Increment entry `i` of a counts list (Python `counts[i] += 1`). -/
def bumpAt (l : List ℚ) (i : ℕ) : List ℚ := l.set i (l.getD i 0 + 1)

/-- The Laplace-smoothed weekday counts of `learn_irregular_state`:
`[1]*7`, incremented per matched transaction's weekday. -/
def learnCounts (txns : List Posted) : List ℚ :=
  txns.foldl (fun c t => bumpAt c t.timestamp.weekday) (List.replicate 7 (1 : ℚ))

/-- The normalised weekday probabilities `[c / total for c in counts]`. -/
def learnWeekdayProbs (txns : List Posted) : List ℚ :=
  (learnCounts txns).map fun c => c / (learnCounts txns).sum

/-- Positive absolute amounts `[abs(t.amount) for t in txns if abs(...)>0]`. -/
def learnAmounts (txns : List Posted) : List ℚ :=
  (txns.map fun t => |t.amount|).filter fun a => 0 < a

/-- The smoothed average gap of `learn_irregular_state`: with at least
three gaps, exponential smoothing seeded by the first gap; otherwise the
arithmetic mean. -/
def learnAvgGap (alpha : ℚ) (txns : List Posted) : ℚ :=
  if 3 ≤ ((txns.zip txns.tail).map fun p => dtGapDays p.1.timestamp p.2.timestamp).length then
    (((txns.zip txns.tail).map fun p => dtGapDays p.1.timestamp p.2.timestamp).tail).foldl
      (fun avg g => alpha * g + (1 - alpha) * avg)
      (((txns.zip txns.tail).map fun p => dtGapDays p.1.timestamp p.2.timestamp).headD 0)
  else pyMean ((txns.zip txns.tail).map fun p => dtGapDays p.1.timestamp p.2.timestamp)

/-- The fitted log-amount parameters of `learn_irregular_state`: present
only with at least eight positive samples; `sigma` is 0 for a single log
sample. -/
def learnMuSigma (rlog rsqrt : ℚ → ℚ) (amounts : List ℚ) : Option ℚ × Option ℚ :=
  if 8 ≤ amounts.length then
    (some (pyMean ((amounts.filter fun a => 0 < a).map rlog)),
     some (if 1 < ((amounts.filter fun a => 0 < a).map rlog).length
       then pyStdev rsqrt ((amounts.filter fun a => 0 < a).map rlog) else 0))
  else (none, none)

/-- The one-or-two-match update of `learn_irregular_state`: only
`median_amount` and `last_event_at` change. -/
def learnSmallState (state0 : IrregularState) (txns : List Posted) : IrregularState :=
  { state0 with
    median_amount :=
      if learnAmounts txns ≠ [] then some (pyMedian (learnAmounts txns)) else none,
    last_event_at := maxTimestamp txns }

/-- The full re-fit of `learn_irregular_state` over at least three matched
transactions. -/
def learnFullState (alpha : ℚ) (rlog rsqrt : ℚ → ℚ) (txns : List Posted) :
    IrregularState :=
  { avg_gap_days := some (learnAvgGap alpha txns),
    weekday_probs := some (learnWeekdayProbs txns),
    amount_mu := (learnMuSigma rlog rsqrt (learnAmounts txns)).1,
    amount_sigma := (learnMuSigma rlog rsqrt (learnAmounts txns)).2,
    median_amount :=
      if learnAmounts txns ≠ [] then some (pyMedian (learnAmounts txns)) else none,
    last_event_at := maxTimestamp txns }

/-- services_irregular.py `learn_irregular_state`: raises on an unknown
category; with no matched transactions returns the state unchanged; with
one or two matches updates only `median_amount` and `last_event_at`; with
three or more performs the full re-fit. -/
def learn_irregular_state (cat? : Option IrregularCategory) (allTxns : List Posted)
    (matchp : String → Bool) (startT endT : DateTime) (state0 : IrregularState)
    (rlog rsqrt : ℚ → ℚ) : Except String IrregularState :=
  match cat? with
  | none => .error "Unknown category id"
  | some cat =>
    if learnWindowTxns cat.window_days allTxns matchp startT endT = [] then .ok state0
    else if (learnWindowTxns cat.window_days allTxns matchp startT endT).length < 3 then
      .ok (learnSmallState state0 (learnWindowTxns cat.window_days allTxns matchp startT endT))
    else
      .ok (learnFullState cat.alpha rlog rsqrt
        (learnWindowTxns cat.window_days allTxns matchp startT endT))

/-- The probability vector `update_irregular_state` starts from: the stored
one when it is a 7-element list, a uniform `1/7` vector otherwise
(including the malformed-JSON fallback). -/
def updateProbsBase (wp? : Option (List ℚ)) : List ℚ :=
  match wp? with
  | some l => if l.length = 7 then l else List.replicate 7 ((1 : ℚ) / 7)
  | none => List.replicate 7 ((1 : ℚ) / 7)

/-- services_irregular.py `update_irregular_state`: exponential smoothing
of the gap (only when at least one day has passed) and of the
median-amount approximation, then a weekday-probability bump and
renormalisation, then `last_event_at := new_tx.timestamp`.
`catAlpha?` models `state.category.alpha if state.category else 0.3`. -/
def update_irregular_state (state : IrregularState) (catAlpha? : Option ℚ)
    (tx : Posted) : IrregularState :=
  { avg_gap_days :=
      match state.last_event_at with
      | some last =>
        if 1 ≤ dtGapDays last tx.timestamp then
          match state.avg_gap_days with
          | none => some (dtGapDays last tx.timestamp)
          | some avg => some ((catAlpha?.getD (3/10)) * dtGapDays last tx.timestamp
              + (1 - catAlpha?.getD (3/10)) * avg)
        else state.avg_gap_days
      | none => state.avg_gap_days,
    weekday_probs :=
      some ((bumpAt (updateProbsBase state.weekday_probs) tx.timestamp.weekday).map
        fun c => c / (bumpAt (updateProbsBase state.weekday_probs) tx.timestamp.weekday).sum),
    amount_mu := state.amount_mu,
    amount_sigma := state.amount_sigma,
    median_amount :=
      if 0 < |tx.amount| then
        match state.median_amount with
        | none => some |tx.amount|
        | some m => some ((catAlpha?.getD (3/10)) * |tx.amount|
            + (1 - catAlpha?.getD (3/10)) * m)
      else state.median_amount,
    last_event_at := some tx.timestamp }

-- ## The irregular forecaster (`budget/services_irregular.py`)

/-- Python `d.weekday()` for a date. -/
def Date.weekday (d : Date) : ℕ := (d.toOrd + 6) % 7

/-- Python `max(range(7), key=lambda i: weekday_probs[i])`: the first index
carrying the maximal probability. -/
def bestWeekday (probs : List ℚ) : ℕ :=
  (List.range 7).foldl (fun best i =>
    if probs.getD best 0 < probs.getD i 0 then i else best) 0

/-- The `while d.weekday() != best: d += 1` loop of `snap_weekday`, as fuel
recursion; seven steps of fuel always reach any weekday below 7. -/
def snapWeekdayF (best? : Option ℕ) : ℕ → Date → Date
  | 0, d => d
  | fuel + 1, d =>
    match best? with
    | none => d
    | some best => if d.weekday = best then d else snapWeekdayF best? fuel (addDays d 1)

/-- services_irregular.py `snap_weekday` inside `forecast_irregular`. -/
def snap_weekday (best? : Option ℕ) (d : Date) : Date := snapWeekdayF best? 7 d

/-- The per-step gap of the deterministic forecast:
`math.ceil(state.avg_gap_days if state.avg_gap_days else 7)`. -/
def detGapDays (avg : ℚ) : ℤ := if avg ≠ 0 then ⌈avg⌉ else 7

/-- The `while next_date < start` catch-up loop of the deterministic
forecast; `none` on fuel exhaustion (unreachable whenever the gap is at
least one day, see the termination theorem). -/
def detCatchF (gap : ℤ) (best? : Option ℕ) (startD : Date) : ℕ → Date → Option Date
  | 0, d => if startD.toOrd ≤ d.toOrd then some d else none
  | fuel + 1, d =>
    if d.toOrd < startD.toOrd then
      detCatchF gap best? startD fuel (snap_weekday best? (addDaysI d gap))
    else some d

/-- The `while next_date <= end` emission loop of the deterministic
forecast, collecting the event dates; `none` on fuel exhaustion. -/
def detEmitF (gap : ℤ) (best? : Option ℕ) (endD : Date) : ℕ → Date → Option (List Date)
  | 0, d => if endD.toOrd < d.toOrd then some [] else none
  | fuel + 1, d =>
    if d.toOrd ≤ endD.toOrd then
      match detEmitF gap best? endD fuel (snap_weekday best? (addDaysI d gap)) with
      | some rest => some (d :: rest)
      | none => none
    else some []

/-- Insert-or-add into an insertion-ordered association list (the
`totals` dict of `forecast_irregular`). -/
def upsertAdd : List (Date × ℚ) → Date × ℚ → List (Date × ℚ)
  | [], de => [de]
  | (d, a) :: rest, de =>
    if d = de.1 then (d, a + de.2) :: rest else (d, a) :: upsertAdd rest de

/-- Ordering of `(date, total)` pairs by date (`sorted(totals.items())`). -/
def datePairLE (a b : Date × ℚ) : Prop := a.1.toOrd ≤ b.1.toOrd

instance : DecidableRel datePairLE := fun a b => by unfold datePairLE; infer_instance

instance : IsTotal (Date × ℚ) datePairLE := ⟨by intro a b; unfold datePairLE; omega⟩

instance : IsTrans (Date × ℚ) datePairLE := ⟨by intro a b c; unfold datePairLE; omega⟩

/-- The day-aggregation of the deterministic forecast: keep events inside
`[start, end]`, sum them per day in a dict, and sort the items by date. -/
def aggregateByDate (events : List (Date × ℚ)) (startD endD : Date) : List (Date × ℚ) :=
  List.insertionSort datePairLE
    (events.foldl (fun acc de =>
      if startD.toOrd ≤ de.1.toOrd ∧ de.1.toOrd ≤ endD.toOrd then upsertAdd acc de
      else acc) [])

/-- Python `round` (banker's rounding, half to even). -/
def pyRound (x : ℚ) : ℤ :=
  if x - ⌊x⌋ < 1 / 2 then ⌊x⌋
  else if 1 / 2 < x - ⌊x⌋ then ⌊x⌋ + 1
  else if ⌊x⌋ % 2 = 0 then ⌊x⌋ else ⌊x⌋ + 1

/-- The clamped integral gap of one Monte Carlo step:
`int(round(min(max(1.0, gap), 30.0)))`. -/
def mcClampGap (g : ℚ) : ℤ := pyRound (min (max 1 g) 30)

/-- One Monte Carlo step's date advance: add the clamped drawn gap, then,
when a weekday distribution exists, walk forward to the drawn weekday. -/
def mcStep (wp : Option (List ℚ)) (gapDraw : ℕ → ℚ) (wdDraw : ℕ → Fin 7)
    (i : ℕ) (current : Date) : Date :=
  match wp with
  | some _ => snap_weekday (some (wdDraw i).val)
      (addDays current (mcClampGap (gapDraw i)).toNat)
  | none => addDays current (mcClampGap (gapDraw i)).toNat

/-- One simulated Monte Carlo path (`for r in range(n)` body): starting at
the last event date, repeatedly draw a gap, advance, optionally snap to a
drawn weekday, and accumulate a drawn amount into the day bucket, until
the date leaves the window.  The random draws of iteration `i` come from
the streams `gapDraw`, `wdDraw`, `lognormDraw`, `noiseDraw`; `none` on
fuel exhaustion (unreachable, see the termination theorem). -/
def mcPathF (wp : Option (List ℚ)) (hasMS : Bool) (median : ℚ)
    (gapDraw : ℕ → ℚ) (wdDraw : ℕ → Fin 7) (lognormDraw noiseDraw : ℕ → ℚ)
    (startD endD : Date) : ℕ → ℕ → Date → List ℚ → Option (List ℚ)
  | 0, _, _, _ => none
  | fuel + 1, i, current, row =>
    if endD.toOrd < (mcStep wp gapDraw wdDraw i current).toOrd then some row
    else if (mcStep wp gapDraw wdDraw i current).toOrd < startD.toOrd then
      mcPathF wp hasMS median gapDraw wdDraw lognormDraw noiseDraw startD endD fuel (i + 1)
        (mcStep wp gapDraw wdDraw i current) row
    else
      mcPathF wp hasMS median gapDraw wdDraw lognormDraw noiseDraw startD endD fuel (i + 1)
        (mcStep wp gapDraw wdDraw i current)
        (row.set ((mcStep wp gapDraw wdDraw i current).toOrd - startD.toOrd)
          (row.getD ((mcStep wp gapDraw wdDraw i current).toOrd - startD.toOrd) 0
            + (if hasMS then lognormDraw i else median * (1 + noiseDraw i))))

/-- services_irregular.py `percentile` (linear-interpolation order
statistic over the sorted values). -/
def percentile (values : List ℚ) (p : ℚ) : ℚ :=
  if (⌊((values.length : ℚ) - 1) * p⌋ : ℤ) = ⌈((values.length : ℚ) - 1) * p⌉ then
    (List.insertionSort (fun a b : ℚ => a ≤ b) values).getD
      (⌊((values.length : ℚ) - 1) * p⌋).toNat 0
  else
    (List.insertionSort (fun a b : ℚ => a ≤ b) values).getD
      (⌊((values.length : ℚ) - 1) * p⌋).toNat 0
    + ((List.insertionSort (fun a b : ℚ => a ≤ b) values).getD
        (⌈((values.length : ℚ) - 1) * p⌉).toNat 0
      - (List.insertionSort (fun a b : ℚ => a ≤ b) values).getD
        (⌊((values.length : ℚ) - 1) * p⌋).toNat 0)
      * (((values.length : ℚ) - 1) * p - ⌊((values.length : ℚ) - 1) * p⌋)

/-- One percentile series of the Monte Carlo output: for each day of the
horizon, the `p`-percentile of that day's totals across all paths. -/
def mcSeries (runs : List (List ℚ)) (startD : Date) (horizon : ℕ) (p : ℚ) :
    List (Date × ℚ) :=
  (List.range horizon).map fun i =>
    (addDays startD i, percentile (runs.map fun row => row.getD i 0) p)

/-- The forecast mode (`"deterministic" | "monte_carlo"`). -/
inductive ForecastMode
  | deterministic
  | monte_carlo
deriving DecidableEq, Repr

/-- The result of `forecast_irregular`: a `(date, amount)` list in
deterministic mode, the three percentile series in Monte Carlo mode. -/
inductive ForecastResult
  | det (events : List (Date × ℚ))
  | mc (p50 p80 p90 : List (Date × ℚ))
deriving DecidableEq, Repr

/-- The p50/p80/p90 block of the Monte Carlo branch. -/
def mc_percentiles (runs : List (List ℚ)) (startD : Date) (horizon : ℕ) :
    ForecastResult :=
  .mc (mcSeries runs startD horizon (1 / 2)) (mcSeries runs startD horizon (4 / 5))
    (mcSeries runs startD horizon (9 / 10))

/-- The lazy-bootstrap step of `forecast_irregular`: when no state exists
or a required field is missing, learn over `[end - window_days, end]`. -/
def forecastBootstrap (cat : IrregularCategory) (state? : Option IrregularState)
    (allTxns : List Posted) (matchp : String → Bool) (endD : Date)
    (rlog rsqrt : ℚ → ℚ) : Except String IrregularState :=
  match state? with
  | some st =>
    if st.avg_gap_days = none ∨ st.median_amount = none ∨ st.last_event_at = none then
      learn_irregular_state (some cat) allTxns matchp
        ⟨subDays endD cat.window_days, 0⟩ ⟨endD, 0⟩ st rlog rsqrt
    else .ok st
  | none =>
    learn_irregular_state (some cat) allTxns matchp
      ⟨subDays endD cat.window_days, 0⟩ ⟨endD, 0⟩ {} rlog rsqrt

/-- The parsed best weekday of the deterministic branch: the argmax index
when a 7-element distribution is stored, otherwise no snapping. -/
def detBest (st : IrregularState) : Option ℕ :=
  match st.weekday_probs with
  | some l => if l.length = 7 then some (bestWeekday l) else none
  | none => none

/-- The per-event amount of the deterministic branch: `median_amount`,
falling back to the mean of the recent matched history. -/
def detAmount (cat : IrregularCategory) (st : IrregularState) (allTxns : List Posted)
    (matchp : String → Bool) (endD : Date) : Option ℚ :=
  match st.median_amount with
  | some m => some m
  | none =>
    if learnAmounts (learnWindowTxns cat.window_days allTxns matchp
        ⟨subDays endD cat.window_days, 0⟩ ⟨endD, 0⟩) ≠ [] then
      some (pyMean (learnAmounts (learnWindowTxns cat.window_days allTxns matchp
        ⟨subDays endD cat.window_days, 0⟩ ⟨endD, 0⟩)))
    else none

/-- The seeded first candidate of the deterministic branch:
`snap_weekday(last_event_date + gap_days)` (the forecast start stands in
for a missing `last_event_at`). -/
def detSeed (st : IrregularState) (startD : Date) (gap : ℤ) (best? : Option ℕ) : Date :=
  snap_weekday best?
    (addDaysI (match st.last_event_at with | some t => t.date | none => startD) gap)

/-- The deterministic branch of `forecast_irregular` after the
sufficiency guard: resolve the amount, seed, catch up to `start`, emit
while on or before `end`, and aggregate by day. -/
def forecastDet (cat : IrregularCategory) (st : IrregularState) (allTxns : List Posted)
    (matchp : String → Bool) (startD endD : Date) : List (Date × ℚ) :=
  match detAmount cat st allTxns matchp endD with
  | none => []
  | some amt =>
    match detCatchF (detGapDays (st.avg_gap_days.getD 0)) (detBest st) startD
        ((startD.toOrd + 1
          - (detSeed st startD (detGapDays (st.avg_gap_days.getD 0)) (detBest st)).toOrd) + 1)
        (detSeed st startD (detGapDays (st.avg_gap_days.getD 0)) (detBest st)) with
    | none => []
    | some next₁ =>
      match detEmitF (detGapDays (st.avg_gap_days.getD 0)) (detBest st) endD
          ((endD.toOrd + 1 - next₁.toOrd) + 1) next₁ with
      | none => []
      | some dates => aggregateByDate (dates.map fun d => (d, amt)) startD endD

/-- The shape-checked weekday distribution of the Monte Carlo branch. -/
def mcWp (st : IrregularState) : Option (List ℚ) :=
  match st.weekday_probs with
  | some l => if l.length = 7 then some l else none
  | none => none

/-- Whether both log-normal parameters are fitted. -/
def mcHasMS (st : IrregularState) : Bool :=
  match st.amount_mu, st.amount_sigma with
  | some _, some _ => true
  | _, _ => false

/-- The Monte Carlo branch of `forecast_irregular` after the sufficiency
guard: `n` simulated paths over the horizon, then per-day percentiles. -/
def forecastMC (st : IrregularState) (startD endD : Date) (n : ℕ)
    (gapDraw : ℕ → ℕ → ℚ) (wdDraw : ℕ → ℕ → Fin 7)
    (lognormDraw noiseDraw : ℕ → ℕ → ℚ) : ForecastResult :=
  mc_percentiles
    ((List.range n).map fun r =>
      (mcPathF (mcWp st) (mcHasMS st) (st.median_amount.getD 0)
        (gapDraw r) (wdDraw r) (lognormDraw r) (noiseDraw r) startD endD
        ((endD.toOrd + 1
          - (match st.last_event_at with | some t => t.date | none => startD).toOrd) + 1)
        0 (match st.last_event_at with | some t => t.date | none => startD)
        (List.replicate (((endD.toOrd : ℤ) - startD.toOrd + 1).toNat) 0)).getD
        (List.replicate (((endD.toOrd : ℤ) - startD.toOrd + 1).toNat) 0))
    startD (((endD.toOrd : ℤ) - startD.toOrd + 1).toNat)

/-- The body of `forecast_irregular` after the bootstrap: the empty
series of the selected mode when the (possibly re-learned) state still
lacks `avg_gap_days`, or lacks both `median_amount` and the fitted
log-normal parameters; otherwise the selected branch. -/
def forecastAfter (cat : IrregularCategory) (st : IrregularState) (allTxns : List Posted)
    (matchp : String → Bool) (startD endD : Date) (mode : ForecastMode) (n : ℕ)
    (gapDraw : ℕ → ℕ → ℚ) (wdDraw : ℕ → ℕ → Fin 7)
    (lognormDraw noiseDraw : ℕ → ℕ → ℚ) : ForecastResult :=
  if st.avg_gap_days = none
      ∨ (st.median_amount = none ∧ (st.amount_mu = none ∨ st.amount_sigma = none)) then
    match mode with
    | .monte_carlo => .mc [] [] []
    | .deterministic => .det []
  else
    match mode with
    | .deterministic => .det (forecastDet cat st allTxns matchp startD endD)
    | .monte_carlo => forecastMC st startD endD n gapDraw wdDraw lognormDraw noiseDraw

/-- services_irregular.py `forecast_irregular`: raises on an unknown
category id; lazily bootstraps the state by learning; then runs
`forecastAfter` on the bootstrapped state.  The random draws are
abstracted as input streams indexed by path and iteration. -/
def forecast_irregular (cat? : Option IrregularCategory) (state? : Option IrregularState)
    (allTxns : List Posted) (matchp : String → Bool) (startD endD : Date)
    (mode : ForecastMode) (n : ℕ) (rlog rsqrt : ℚ → ℚ)
    (gapDraw : ℕ → ℕ → ℚ) (wdDraw : ℕ → ℕ → Fin 7)
    (lognormDraw noiseDraw : ℕ → ℕ → ℚ) : Except String ForecastResult :=
  match cat? with
  | none => .error "Unknown category id"
  | some cat =>
    (forecastBootstrap cat state? allTxns matchp endD rlog rsqrt).map fun st =>
      forecastAfter cat st allTxns matchp startD endD mode n gapDraw wdDraw
        lognormDraw noiseDraw

-- ## Weekday-probability invariants

theorem bumpAt_length (l : List ℚ) (i : ℕ) : (bumpAt l i).length = l.length :=
  List.length_set l i _

theorem bumpAt_pos (l : List ℚ) (i : ℕ) (h : ∀ x ∈ l, 0 < x) :
    ∀ x ∈ bumpAt l i, 0 < x := by
  intro x hx
  rcases List.mem_or_eq_of_mem_set hx with hmem | heq
  · exact h x hmem
  · have hd : 0 ≤ l.getD i 0 := by
      by_cases hi : i < l.length
      · have hg : l.getD i 0 = l.get ⟨i, hi⟩ := List.getD_eq_get l 0 hi
        rw [hg]
        exact le_of_lt (h _ (List.get_mem l i hi))
      · rw [List.getD_eq_default l 0 (by omega)]
    rw [heq]; linarith

theorem countsFold_length (txns : List Posted) (c : List ℚ) (hl : c.length = 7) :
    (txns.foldl (fun c t => bumpAt c t.timestamp.weekday) c).length = 7 := by
  induction txns generalizing c with
  | nil => exact hl
  | cons t ts ih => exact ih _ (by rw [bumpAt_length]; exact hl)

theorem countsFold_pos (txns : List Posted) (c : List ℚ) (hp : ∀ x ∈ c, 0 < x) :
    ∀ x ∈ txns.foldl (fun c t => bumpAt c t.timestamp.weekday) c, 0 < x := by
  induction txns generalizing c with
  | nil => exact hp
  | cons t ts ih => exact ih _ (bumpAt_pos _ _ hp)

theorem sum_map_div (l : List ℚ) (s : ℚ) : (l.map fun c => c / s).sum = l.sum / s := by
  induction l with
  | nil => simp
  | cons a t ih => simp [ih, add_div]

theorem normProbs_ok (c : List ℚ) (hl : c.length = 7) (hp : ∀ x ∈ c, 0 < x) :
    (c.map fun x => x / c.sum).length = 7
      ∧ (∀ x ∈ c.map fun x => x / c.sum, 0 < x)
      ∧ (c.map fun x => x / c.sum).sum = 1 := by
  have hs : 0 < c.sum := List.sum_pos c hp (by
    intro h; rw [h] at hl; simp at hl)
  refine ⟨by simpa using hl, ?_, ?_⟩
  · intro x hx
    rcases List.mem_map.mp hx with ⟨a, ha, rfl⟩
    exact div_pos (hp a ha) hs
  · rw [sum_map_div, div_self (ne_of_gt hs)]

theorem updateProbsBase_length (wp? : Option (List ℚ)) :
    (updateProbsBase wp?).length = 7 := by
  cases wp? with
  | none => rfl
  | some l =>
    show (if l.length = 7 then l else List.replicate 7 ((1 : ℚ) / 7)).length = 7
    split_ifs with hl
    · exact hl
    · simp

theorem updateProbsBase_pos (wp? : Option (List ℚ))
    (h : ∀ l, wp? = some l → l.length = 7 → ∀ x ∈ l, 0 < x) :
    ∀ x ∈ updateProbsBase wp?, 0 < x := by
  cases wp? with
  | none =>
    intro x hx
    rw [List.eq_of_mem_replicate hx]
    norm_num
  | some l =>
    by_cases hl : l.length = 7
    · intro x hx
      have he : updateProbsBase (some l) = l := by
        show (if l.length = 7 then l else List.replicate 7 ((1 : ℚ) / 7)) = l
        rw [if_pos hl]
      rw [he] at hx
      exact h l rfl hl x hx
    · intro x hx
      have he : updateProbsBase (some l) = List.replicate 7 ((1 : ℚ) / 7) := by
        show (if l.length = 7 then l else List.replicate 7 ((1 : ℚ) / 7)) = _
        rw [if_neg hl]
      rw [he] at hx
      rw [List.eq_of_mem_replicate hx]
      norm_num

/-- C7: after `learn_irregular_state` runs with at least 3 matched
transactions, and after every `update_irregular_state` call whose incoming
state carries no stored 7-entry weekday vector with a non-positive entry,
the stored `weekday_probs` vector has exactly 7 entries, every entry is
strictly positive, and the entries sum to 1 (exactly, in the idealised
rational arithmetic); this holds for every input transaction history. -/
theorem C7_weekday_probs_invariant :
    (∀ (cat : IrregularCategory) (allTxns : List Posted) (matchp : String → Bool)
        (startT endT : DateTime) (state0 : IrregularState) (rlog rsqrt : ℚ → ℚ)
        (st : IrregularState),
      learn_irregular_state (some cat) allTxns matchp startT endT state0 rlog rsqrt = .ok st →
      3 ≤ (learnWindowTxns cat.window_days allTxns matchp startT endT).length →
      ∃ wp, st.weekday_probs = some wp
        ∧ wp.length = 7 ∧ (∀ x ∈ wp, 0 < x) ∧ wp.sum = 1)
    ∧ (∀ (state : IrregularState) (catAlpha? : Option ℚ) (tx : Posted),
      (∀ l, state.weekday_probs = some l → l.length = 7 → ∀ x ∈ l, 0 < x) →
      ∃ wp, (update_irregular_state state catAlpha? tx).weekday_probs = some wp
        ∧ wp.length = 7 ∧ (∀ x ∈ wp, 0 < x) ∧ wp.sum = 1) := by
  constructor
  · intro cat allTxns matchp startT endT state0 rlog rsqrt st hok h3
    have hne : learnWindowTxns cat.window_days allTxns matchp startT endT ≠ [] := by
      intro h; rw [h] at h3; simp at h3
    have hlt : ¬ (learnWindowTxns cat.window_days allTxns matchp startT endT).length < 3 := by
      omega
    replace hok : (if learnWindowTxns cat.window_days allTxns matchp startT endT = [] then
        Except.ok state0
      else if (learnWindowTxns cat.window_days allTxns matchp startT endT).length < 3 then
        Except.ok (learnSmallState state0
          (learnWindowTxns cat.window_days allTxns matchp startT endT))
      else Except.ok (learnFullState cat.alpha rlog rsqrt
        (learnWindowTxns cat.window_days allTxns matchp startT endT))) = Except.ok st := hok
    rw [if_neg hne, if_neg hlt] at hok
    injection hok with hst
    subst hst
    have h7 : (learnCounts (learnWindowTxns cat.window_days allTxns matchp startT endT)).length
        = 7 := countsFold_length _ _ (by simp)
    have hpos : ∀ x ∈ learnCounts (learnWindowTxns cat.window_days allTxns matchp startT endT),
        0 < x := countsFold_pos _ _ (by
      intro x hx
      rw [List.eq_of_mem_replicate hx]
      norm_num)
    obtain ⟨hA, hB, hC⟩ := normProbs_ok _ h7 hpos
    exact ⟨learnWeekdayProbs (learnWindowTxns cat.window_days allTxns matchp startT endT),
      rfl, hA, hB, hC⟩
  · intro state catAlpha? tx hbase
    have hb7 : (updateProbsBase state.weekday_probs).length = 7 :=
      updateProbsBase_length state.weekday_probs
    have hbp : ∀ x ∈ updateProbsBase state.weekday_probs, 0 < x :=
      updateProbsBase_pos state.weekday_probs hbase
    have h7 : (bumpAt (updateProbsBase state.weekday_probs) tx.timestamp.weekday).length = 7 := by
      rw [bumpAt_length]; exact hb7
    have hpos : ∀ x ∈ bumpAt (updateProbsBase state.weekday_probs) tx.timestamp.weekday,
        0 < x := bumpAt_pos _ _ hbp
    obtain ⟨hA, hB, hC⟩ := normProbs_ok _ h7 hpos
    exact ⟨_, rfl, hA, hB, hC⟩

def c7txns : List Posted :=
  [⟨"a", 10, ⟨⟨2023, 1, 10⟩, 0⟩⟩, ⟨"b", 20, ⟨⟨2023, 1, 20⟩, 0⟩⟩,
   ⟨"c", 30, ⟨⟨2023, 2, 1⟩, 0⟩⟩]

def c7st : IrregularState :=
  learnFullState (3 / 10) id id (learnWindowTxns 90 c7txns (fun _ => true)
    ⟨⟨2023, 1, 1⟩, 0⟩ ⟨⟨2023, 3, 1⟩, 0⟩)

set_option maxRecDepth 200000 in
/-- C7, witnessed on a concrete three-transaction history and on a
concrete fresh-state update. -/
theorem C7_weekday_probs_invariant_witness :
    (learn_irregular_state (some ⟨90, 3 / 10⟩) c7txns (fun _ => true)
        ⟨⟨2023, 1, 1⟩, 0⟩ ⟨⟨2023, 3, 1⟩, 0⟩ {} id id = .ok c7st)
    ∧ 3 ≤ (learnWindowTxns 90 c7txns (fun _ => true)
        ⟨⟨2023, 1, 1⟩, 0⟩ ⟨⟨2023, 3, 1⟩, 0⟩).length
    ∧ (∃ wp, c7st.weekday_probs = some wp
        ∧ wp.length = 7 ∧ (∀ x ∈ wp, 0 < x) ∧ wp.sum = 1)
    ∧ (∃ wp, (update_irregular_state {} none ⟨"d", 25, ⟨⟨2023, 2, 5⟩, 0⟩⟩).weekday_probs
          = some wp
        ∧ wp.length = 7 ∧ (∀ x ∈ wp, 0 < x) ∧ wp.sum = 1) := by
  have h1 : learn_irregular_state (some ⟨90, 3 / 10⟩) c7txns (fun _ => true)
      ⟨⟨2023, 1, 1⟩, 0⟩ ⟨⟨2023, 3, 1⟩, 0⟩ {} id id = .ok c7st := rfl
  have h2 : 3 ≤ (learnWindowTxns 90 c7txns (fun _ => true)
      ⟨⟨2023, 1, 1⟩, 0⟩ ⟨⟨2023, 3, 1⟩, 0⟩).length := by decide
  exact ⟨h1, h2,
    C7_weekday_probs_invariant.1 ⟨90, 3 / 10⟩ c7txns (fun _ => true)
      ⟨⟨2023, 1, 1⟩, 0⟩ ⟨⟨2023, 3, 1⟩, 0⟩ {} id id c7st h1 h2,
    C7_weekday_probs_invariant.2 {} none ⟨"d", 25, ⟨⟨2023, 2, 5⟩, 0⟩⟩
      (by intro l h; cases h)⟩

-- ## Error behaviour of the learner and forecaster

theorem learn_some_ok (cat : IrregularCategory) (allTxns : List Posted)
    (matchp : String → Bool) (startT endT : DateTime) (state0 : IrregularState)
    (rlog rsqrt : ℚ → ℚ) :
    ∃ st, learn_irregular_state (some cat) allTxns matchp startT endT state0 rlog rsqrt
      = .ok st := by
  show ∃ st, (if learnWindowTxns cat.window_days allTxns matchp startT endT = [] then
      Except.ok state0
    else if (learnWindowTxns cat.window_days allTxns matchp startT endT).length < 3 then
      Except.ok (learnSmallState state0
        (learnWindowTxns cat.window_days allTxns matchp startT endT))
    else Except.ok (learnFullState cat.alpha rlog rsqrt
      (learnWindowTxns cat.window_days allTxns matchp startT endT))) = Except.ok st
  split_ifs <;> exact ⟨_, rfl⟩

theorem forecastBootstrap_ok (cat : IrregularCategory) (state? : Option IrregularState)
    (allTxns : List Posted) (matchp : String → Bool) (endD : Date) (rlog rsqrt : ℚ → ℚ) :
    ∃ st, forecastBootstrap cat state? allTxns matchp endD rlog rsqrt = .ok st := by
  cases state? with
  | none => exact learn_some_ok cat allTxns matchp _ _ {} rlog rsqrt
  | some st0 =>
    show ∃ st, (if st0.avg_gap_days = none ∨ st0.median_amount = none
        ∨ st0.last_event_at = none then
      learn_irregular_state (some cat) allTxns matchp
        ⟨subDays endD cat.window_days, 0⟩ ⟨endD, 0⟩ st0 rlog rsqrt
    else Except.ok st0) = Except.ok st
    split_ifs with h
    · exact learn_some_ok cat allTxns matchp _ _ st0 rlog rsqrt
    · exact ⟨st0, rfl⟩

/-- C8: `forecast_irregular` (and likewise `learn_irregular_state`) raises
an error to the caller exactly when the category id is unknown; with a
known category it always returns normally, and when the bootstrapped state
still lacks `avg_gap_days`, or lacks both `median_amount` and the fitted
log-normal parameters, it returns the empty series of the selected mode. -/
theorem C8_error_iff_unknown_category :
    (∀ (state? : Option IrregularState) (allTxns : List Posted) (matchp : String → Bool)
        (startD endD : Date) (mode : ForecastMode) (n : ℕ) (rlog rsqrt : ℚ → ℚ)
        (gapDraw : ℕ → ℕ → ℚ) (wdDraw : ℕ → ℕ → Fin 7) (lognormDraw noiseDraw : ℕ → ℕ → ℚ),
      forecast_irregular none state? allTxns matchp startD endD mode n rlog rsqrt
        gapDraw wdDraw lognormDraw noiseDraw = .error "Unknown category id")
    ∧ (∀ (cat : IrregularCategory) (state? : Option IrregularState) (allTxns : List Posted)
        (matchp : String → Bool) (startD endD : Date) (mode : ForecastMode) (n : ℕ)
        (rlog rsqrt : ℚ → ℚ) (gapDraw : ℕ → ℕ → ℚ) (wdDraw : ℕ → ℕ → Fin 7)
        (lognormDraw noiseDraw : ℕ → ℕ → ℚ),
      ∃ res, forecast_irregular (some cat) state? allTxns matchp startD endD mode n rlog rsqrt
        gapDraw wdDraw lognormDraw noiseDraw = .ok res)
    ∧ (∀ (allTxns : List Posted) (matchp : String → Bool) (startT endT : DateTime)
        (state0 : IrregularState) (rlog rsqrt : ℚ → ℚ),
      learn_irregular_state none allTxns matchp startT endT state0 rlog rsqrt
        = .error "Unknown category id")
    ∧ (∀ (cat : IrregularCategory) (allTxns : List Posted) (matchp : String → Bool)
        (startT endT : DateTime) (state0 : IrregularState) (rlog rsqrt : ℚ → ℚ),
      ∃ st, learn_irregular_state (some cat) allTxns matchp startT endT state0 rlog rsqrt
        = .ok st)
    ∧ (∀ (cat : IrregularCategory) (state? : Option IrregularState) (allTxns : List Posted)
        (matchp : String → Bool) (startD endD : Date) (n : ℕ) (rlog rsqrt : ℚ → ℚ)
        (gapDraw : ℕ → ℕ → ℚ) (wdDraw : ℕ → ℕ → Fin 7) (lognormDraw noiseDraw : ℕ → ℕ → ℚ)
        (st : IrregularState),
      forecastBootstrap cat state? allTxns matchp endD rlog rsqrt = .ok st →
      (st.avg_gap_days = none
        ∨ (st.median_amount = none ∧ (st.amount_mu = none ∨ st.amount_sigma = none))) →
      forecast_irregular (some cat) state? allTxns matchp startD endD .deterministic n
          rlog rsqrt gapDraw wdDraw lognormDraw noiseDraw = .ok (.det [])
        ∧ forecast_irregular (some cat) state? allTxns matchp startD endD .monte_carlo n
          rlog rsqrt gapDraw wdDraw lognormDraw noiseDraw = .ok (.mc [] [] [])) := by
  refine ⟨fun _ _ _ _ _ _ _ _ _ _ _ _ _ => rfl, ?_, fun _ _ _ _ _ _ _ => rfl,
    learn_some_ok, ?_⟩
  · intro cat state? allTxns matchp startD endD mode n rlog rsqrt gapDraw wdDraw
      lognormDraw noiseDraw
    obtain ⟨st, hst⟩ := forecastBootstrap_ok cat state? allTxns matchp endD rlog rsqrt
    show ∃ res, (forecastBootstrap cat state? allTxns matchp endD rlog rsqrt).map
      (fun st => forecastAfter cat st allTxns matchp startD endD mode n gapDraw wdDraw
        lognormDraw noiseDraw) = Except.ok res
    rw [hst]
    exact ⟨_, rfl⟩
  · intro cat state? allTxns matchp startD endD n rlog rsqrt gapDraw wdDraw
      lognormDraw noiseDraw st hst hins
    constructor
    · show (forecastBootstrap cat state? allTxns matchp endD rlog rsqrt).map
        (fun st => forecastAfter cat st allTxns matchp startD endD .deterministic n
          gapDraw wdDraw lognormDraw noiseDraw) = Except.ok (.det [])
      rw [hst]
      show Except.ok (forecastAfter cat st allTxns matchp startD endD .deterministic n
        gapDraw wdDraw lognormDraw noiseDraw) = Except.ok (.det [])
      unfold forecastAfter
      rw [if_pos hins]
    · show (forecastBootstrap cat state? allTxns matchp endD rlog rsqrt).map
        (fun st => forecastAfter cat st allTxns matchp startD endD .monte_carlo n
          gapDraw wdDraw lognormDraw noiseDraw) = Except.ok (.mc [] [] [])
      rw [hst]
      show Except.ok (forecastAfter cat st allTxns matchp startD endD .monte_carlo n
        gapDraw wdDraw lognormDraw noiseDraw) = Except.ok (.mc [] [] [])
      unfold forecastAfter
      rw [if_pos hins]

/-- C8, witnessed on a concrete empty history: the missing category
errors, the known category returns normally, and the unlearnable state
yields the empty series of each mode. -/
theorem C8_error_iff_unknown_category_witness :
    (forecast_irregular none none [] (fun _ => false) ⟨2023, 1, 1⟩ ⟨2023, 1, 31⟩
        .deterministic 5 id id (fun _ _ => 0) (fun _ _ => 0) (fun _ _ => 0) (fun _ _ => 0)
      = .error "Unknown category id")
    ∧ (∃ res, forecast_irregular (some ⟨90, 3 / 10⟩) none [] (fun _ => false) ⟨2023, 1, 1⟩
        ⟨2023, 1, 31⟩ .deterministic 5 id id (fun _ _ => 0) (fun _ _ => 0) (fun _ _ => 0)
        (fun _ _ => 0) = .ok res)
    ∧ (learn_irregular_state none [] (fun _ => false) ⟨⟨2023, 1, 1⟩, 0⟩ ⟨⟨2023, 1, 31⟩, 0⟩
        {} id id = .error "Unknown category id")
    ∧ (∃ st, learn_irregular_state (some ⟨90, 3 / 10⟩) [] (fun _ => false)
        ⟨⟨2023, 1, 1⟩, 0⟩ ⟨⟨2023, 1, 31⟩, 0⟩ {} id id = .ok st)
    ∧ (forecastBootstrap ⟨90, 3 / 10⟩ none [] (fun _ => false) ⟨2023, 1, 31⟩ id id = .ok {})
    ∧ (forecast_irregular (some ⟨90, 3 / 10⟩) none [] (fun _ => false) ⟨2023, 1, 1⟩
          ⟨2023, 1, 31⟩ .deterministic 5 id id (fun _ _ => 0) (fun _ _ => 0) (fun _ _ => 0)
          (fun _ _ => 0) = .ok (.det [])
      ∧ forecast_irregular (some ⟨90, 3 / 10⟩) none [] (fun _ => false) ⟨2023, 1, 1⟩
          ⟨2023, 1, 31⟩ .monte_carlo 5 id id (fun _ _ => 0) (fun _ _ => 0) (fun _ _ => 0)
          (fun _ _ => 0) = .ok (.mc [] [] [])) := by
  have hboot : forecastBootstrap ⟨90, 3 / 10⟩ none [] (fun _ => false) ⟨2023, 1, 31⟩ id id
      = .ok {} := rfl
  exact ⟨C8_error_iff_unknown_category.1 none [] (fun _ => false) ⟨2023, 1, 1⟩
      ⟨2023, 1, 31⟩ .deterministic 5 id id (fun _ _ => 0) (fun _ _ => 0) (fun _ _ => 0)
      (fun _ _ => 0),
    C8_error_iff_unknown_category.2.1 ⟨90, 3 / 10⟩ none [] (fun _ => false) ⟨2023, 1, 1⟩
      ⟨2023, 1, 31⟩ .deterministic 5 id id (fun _ _ => 0) (fun _ _ => 0) (fun _ _ => 0)
      (fun _ _ => 0),
    C8_error_iff_unknown_category.2.2.1 [] (fun _ => false) ⟨⟨2023, 1, 1⟩, 0⟩
      ⟨⟨2023, 1, 31⟩, 0⟩ {} id id,
    C8_error_iff_unknown_category.2.2.2.1 ⟨90, 3 / 10⟩ [] (fun _ => false)
      ⟨⟨2023, 1, 1⟩, 0⟩ ⟨⟨2023, 1, 31⟩, 0⟩ {} id id,
    hboot,
    C8_error_iff_unknown_category.2.2.2.2 ⟨90, 3 / 10⟩ none [] (fun _ => false)
      ⟨2023, 1, 1⟩ ⟨2023, 1, 31⟩ 5 id id (fun _ _ => 0) (fun _ _ => 0) (fun _ _ => 0)
      (fun _ _ => 0) {} hboot (Or.inl rfl)⟩

-- ## Percentile monotonicity

theorem sorted_getD_mono (l : List ℚ) (hs : l.Sorted (fun a b : ℚ => a ≤ b)) {i j : ℕ}
    (hij : i ≤ j) (hj : j < l.length) : l.getD i 0 ≤ l.getD j 0 := by
  have hi : i < l.length := lt_of_le_of_lt hij hj
  rw [List.getD_eq_get l 0 hi, List.getD_eq_get l 0 hj]
  exact List.Sorted.rel_get_of_le hs hij

theorem percentile_eq (values : List ℚ) (p : ℚ) :
    percentile values p =
      (List.insertionSort (fun a b : ℚ => a ≤ b) values).getD
          (⌊((values.length : ℚ) - 1) * p⌋).toNat 0
        + ((List.insertionSort (fun a b : ℚ => a ≤ b) values).getD
            (⌈((values.length : ℚ) - 1) * p⌉).toNat 0
          - (List.insertionSort (fun a b : ℚ => a ≤ b) values).getD
            (⌊((values.length : ℚ) - 1) * p⌋).toNat 0)
          * (((values.length : ℚ) - 1) * p - ⌊((values.length : ℚ) - 1) * p⌋) := by
  unfold percentile
  split_ifs with h
  · have hk : ((values.length : ℚ) - 1) * p = ⌊((values.length : ℚ) - 1) * p⌋ := by
      have h1 := Int.floor_le (((values.length : ℚ) - 1) * p)
      have h2 := Int.le_ceil (((values.length : ℚ) - 1) * p)
      rw [← h] at h2
      push_cast at h1 h2 ⊢
      linarith
    have ht : ((values.length : ℚ) - 1) * p - ⌊((values.length : ℚ) - 1) * p⌋ = 0 := by
      linarith
    rw [ht, mul_zero, add_zero]
  · rfl

theorem interp_mono (g : ℕ → ℚ) (L : ℕ)
    (hg : ∀ i j : ℕ, i ≤ j → j < L → g i ≤ g j) (k₁ k₂ : ℚ)
    (h0 : 0 ≤ k₁) (h12 : k₁ ≤ k₂) (h2 : k₂ ≤ (L : ℚ) - 1) :
    g ⌊k₁⌋.toNat + (g ⌈k₁⌉.toNat - g ⌊k₁⌋.toNat) * (k₁ - ⌊k₁⌋)
      ≤ g ⌊k₂⌋.toNat + (g ⌈k₂⌉.toNat - g ⌊k₂⌋.toNat) * (k₂ - ⌊k₂⌋) := by
  have hf1 : (0 : ℤ) ≤ ⌊k₁⌋ := Int.floor_nonneg.mpr h0
  have hf12 : ⌊k₁⌋ ≤ ⌊k₂⌋ := Int.floor_le_floor h12
  have hc12 : ⌈k₁⌉ ≤ ⌈k₂⌉ := Int.ceil_le_ceil h12
  have hfc1 : ⌊k₁⌋ ≤ ⌈k₁⌉ := Int.floor_le_ceil k₁
  have hfc2 : ⌊k₂⌋ ≤ ⌈k₂⌉ := Int.floor_le_ceil k₂
  have hcf1 : ⌈k₁⌉ ≤ ⌊k₁⌋ + 1 := Int.ceil_le_floor_add_one k₁
  have hcf2 : ⌈k₂⌉ ≤ ⌊k₂⌋ + 1 := Int.ceil_le_floor_add_one k₂
  have hc2L : ⌈k₂⌉ ≤ (L : ℤ) - 1 := by
    apply Int.ceil_le.mpr
    push_cast
    linarith
  have hr1a : (⌊k₁⌋ : ℚ) ≤ k₁ := Int.floor_le k₁
  have hr1b : k₁ < ⌊k₁⌋ + 1 := Int.lt_floor_add_one k₁
  have hr2a : (⌊k₂⌋ : ℚ) ≤ k₂ := Int.floor_le k₂
  have hk1c : k₁ ≤ (⌈k₁⌉ : ℚ) := Int.le_ceil k₁
  have hidx : ∀ a b : ℤ, 0 ≤ a → a ≤ b → b ≤ (L : ℤ) - 1 → g a.toNat ≤ g b.toNat := by
    intro a b ha hab hb
    exact hg a.toNat b.toNat (by omega) (by omega)
  by_cases hcase : ⌈k₁⌉ ≤ ⌊k₂⌋
  · have h1 : g ⌊k₁⌋.toNat ≤ g ⌈k₁⌉.toNat := hidx _ _ hf1 hfc1 (by omega)
    have h2' : g ⌈k₁⌉.toNat ≤ g ⌊k₂⌋.toNat := hidx _ _ (by omega) hcase (by omega)
    have h3 : g ⌊k₂⌋.toNat ≤ g ⌈k₂⌉.toNat := hidx _ _ (by omega) hfc2 hc2L
    have hub : g ⌊k₁⌋.toNat + (g ⌈k₁⌉.toNat - g ⌊k₁⌋.toNat) * (k₁ - ⌊k₁⌋)
        ≤ g ⌈k₁⌉.toNat := by
      nlinarith [mul_nonneg (sub_nonneg.mpr h1)
        (by linarith : (0 : ℚ) ≤ 1 - (k₁ - ⌊k₁⌋))]
    have hlb : g ⌊k₂⌋.toNat
        ≤ g ⌊k₂⌋.toNat + (g ⌈k₂⌉.toNat - g ⌊k₂⌋.toNat) * (k₂ - ⌊k₂⌋) := by
      nlinarith [mul_nonneg (sub_nonneg.mpr h3) (by linarith : (0 : ℚ) ≤ k₂ - ⌊k₂⌋)]
    linarith
  · have hff : ⌊k₁⌋ = ⌊k₂⌋ := by omega
    by_cases hc : ⌈k₁⌉ = ⌊k₁⌋
    · have hgc : g (⌈k₁⌉).toNat = g (⌊k₁⌋).toNat := by rw [hc]
      have h3 : g ⌊k₂⌋.toNat ≤ g ⌈k₂⌉.toNat := hidx _ _ (by omega) hfc2 hc2L
      have ht1 : k₁ - (⌊k₁⌋ : ℚ) = 0 := by
        have h2c := hk1c
        rw [hc] at h2c
        linarith
      rw [hgc, ht1, mul_zero, add_zero, hff]
      nlinarith [mul_nonneg (sub_nonneg.mpr h3) (by linarith : (0 : ℚ) ≤ k₂ - ⌊k₂⌋)]
    · have hc1 : ⌈k₁⌉ = ⌊k₁⌋ + 1 := by omega
      have hc2' : ⌈k₂⌉ = ⌊k₂⌋ + 1 := by omega
      have hB : g (⌈k₁⌉).toNat = g (⌈k₂⌉).toNat := by rw [hc1, hc2', hff]
      have hAB : g ⌊k₂⌋.toNat ≤ g ⌈k₂⌉.toNat := hidx _ _ (by omega) hfc2 hc2L
      rw [hB, hff]
      nlinarith [mul_nonneg (sub_nonneg.mpr hAB) (by linarith : (0 : ℚ) ≤ k₂ - k₁)]

theorem percentile_mono (values : List ℚ) (hne : values ≠ []) (p q : ℚ)
    (hp0 : 0 ≤ p) (hpq : p ≤ q) (hq1 : q ≤ 1) :
    percentile values p ≤ percentile values q := by
  have hlen : (List.insertionSort (fun a b : ℚ => a ≤ b) values).length = values.length :=
    List.length_insertionSort _ _
  have hs : (List.insertionSort (fun a b : ℚ => a ≤ b) values).Sorted
      (fun a b : ℚ => a ≤ b) := List.sorted_insertionSort _ _
  have hL : 0 < values.length := List.length_pos.mpr hne
  have hm0 : (0 : ℚ) ≤ (values.length : ℚ) - 1 := by
    have h1 : (1 : ℚ) ≤ (values.length : ℚ) := by exact_mod_cast hL
    linarith
  rw [percentile_eq values p, percentile_eq values q]
  exact interp_mono (fun i => (List.insertionSort (fun a b : ℚ => a ≤ b) values).getD i 0)
    values.length
    (fun i j hij hj => sorted_getD_mono _ hs hij (by omega))
    (((values.length : ℚ) - 1) * p) (((values.length : ℚ) - 1) * q)
    (mul_nonneg hm0 hp0) (mul_le_mul_of_nonneg_left hpq hm0)
    (by nlinarith)

theorem mcSeries_getD (runs : List (List ℚ)) (startD : Date) (horizon : ℕ) (p : ℚ)
    (i : ℕ) (hi : i < horizon) :
    (mcSeries runs startD horizon p).getD i (⟨1, 1, 1⟩, 0)
      = (addDays startD i, percentile (runs.map fun row => row.getD i 0) p) := by
  unfold mcSeries
  rw [List.getD_eq_getElem _ _ (by simpa using hi)]
  simp

/-- C9: the linear-interpolation order-statistic percentile is monotone in
its quantile argument on every non-empty value list, so for every date of
a Monte Carlo forecast window and every matrix of simulated per-day path
totals the reported p50/p80/p90 values for that date are ordered. -/
theorem C9_percentile_monotonicity :
    (∀ (values : List ℚ), values ≠ [] → ∀ p q : ℚ, 0 ≤ p → p ≤ q → q ≤ 1 →
      percentile values p ≤ percentile values q)
    ∧ (∀ (runs : List (List ℚ)) (startD : Date) (horizon i : ℕ), runs ≠ [] → i < horizon →
      ((mcSeries runs startD horizon (1 / 2)).getD i (⟨1, 1, 1⟩, 0)).2
          ≤ ((mcSeries runs startD horizon (4 / 5)).getD i (⟨1, 1, 1⟩, 0)).2
        ∧ ((mcSeries runs startD horizon (4 / 5)).getD i (⟨1, 1, 1⟩, 0)).2
          ≤ ((mcSeries runs startD horizon (9 / 10)).getD i (⟨1, 1, 1⟩, 0)).2)
    ∧ (∀ (runs : List (List ℚ)) (startD : Date) (horizon : ℕ),
      mc_percentiles runs startD horizon
        = .mc (mcSeries runs startD horizon (1 / 2)) (mcSeries runs startD horizon (4 / 5))
          (mcSeries runs startD horizon (9 / 10))) := by
  refine ⟨percentile_mono, ?_, fun _ _ _ => rfl⟩
  intro runs startD horizon i hr hi
  have hne : (runs.map fun row => row.getD i 0) ≠ [] := by simpa using hr
  rw [mcSeries_getD runs startD horizon (1 / 2) i hi,
    mcSeries_getD runs startD horizon (4 / 5) i hi,
    mcSeries_getD runs startD horizon (9 / 10) i hi]
  constructor
  · exact percentile_mono _ hne (1 / 2) (4 / 5) (by norm_num) (by norm_num) (by norm_num)
  · exact percentile_mono _ hne (4 / 5) (9 / 10) (by norm_num) (by norm_num) (by norm_num)

/-- C9, witnessed on a concrete two-value list and a concrete one-path,
two-day Monte Carlo matrix. -/
theorem C9_percentile_monotonicity_witness :
    (percentile [1, 5] (1 / 2) ≤ percentile [1, 5] (4 / 5))
    ∧ (((mcSeries [[3, 4]] ⟨2023, 1, 1⟩ 2 (1 / 2)).getD 1 (⟨1, 1, 1⟩, 0)).2
          ≤ ((mcSeries [[3, 4]] ⟨2023, 1, 1⟩ 2 (4 / 5)).getD 1 (⟨1, 1, 1⟩, 0)).2
        ∧ ((mcSeries [[3, 4]] ⟨2023, 1, 1⟩ 2 (4 / 5)).getD 1 (⟨1, 1, 1⟩, 0)).2
          ≤ ((mcSeries [[3, 4]] ⟨2023, 1, 1⟩ 2 (9 / 10)).getD 1 (⟨1, 1, 1⟩, 0)).2)
    ∧ mc_percentiles [[3, 4]] ⟨2023, 1, 1⟩ 2
        = .mc (mcSeries [[3, 4]] ⟨2023, 1, 1⟩ 2 (1 / 2))
          (mcSeries [[3, 4]] ⟨2023, 1, 1⟩ 2 (4 / 5))
          (mcSeries [[3, 4]] ⟨2023, 1, 1⟩ 2 (9 / 10)) :=
  ⟨C9_percentile_monotonicity.1 [1, 5] (by simp) (1 / 2) (4 / 5) (by norm_num)
      (by norm_num) (by norm_num),
    C9_percentile_monotonicity.2.1 [[3, 4]] ⟨2023, 1, 1⟩ 2 1 (by simp) (by norm_num),
    C9_percentile_monotonicity.2.2 [[3, 4]] ⟨2023, 1, 1⟩ 2⟩

-- ## Termination of the forecast loops

theorem weekday_addDays {d : Date} (h : d.Valid) (n : ℕ) :
    (addDays d n).weekday = (d.weekday + n) % 7 := by
  unfold Date.weekday
  rw [toOrd_addDays h]
  omega

theorem snapWeekdayF_reach : ∀ (fuel : ℕ) (d : Date), d.Valid → ∀ b : ℕ, b < 7 →
    (b + 7 - d.weekday) % 7 < fuel →
    snapWeekdayF (some b) fuel d = addDays d ((b + 7 - d.weekday) % 7) := by
  intro fuel
  induction fuel with
  | zero => intro d hd b hb h; omega
  | succ fuel ih =>
    intro d hd b hb h
    have hwd : d.weekday < 7 := by unfold Date.weekday; omega
    show (if d.weekday = b then d else snapWeekdayF (some b) fuel (addDays d 1)) = _
    by_cases hw : d.weekday = b
    · rw [if_pos hw]
      have hz : (b + 7 - d.weekday) % 7 = 0 := by omega
      rw [hz]
      rfl
    · rw [if_neg hw]
      have h1 : (addDays d 1).weekday = (d.weekday + 1) % 7 := weekday_addDays hd 1
      have hM : 1 ≤ (b + 7 - d.weekday) % 7 := by omega
      have hm : (b + 7 - (addDays d 1).weekday) % 7 = (b + 7 - d.weekday) % 7 - 1 := by
        rw [h1]; omega
      rw [ih (addDays d 1) (valid_addDays hd 1) b hb (by omega), hm]
      obtain ⟨M, hM'⟩ : ∃ M, (b + 7 - d.weekday) % 7 = M + 1 :=
        ⟨_, (Nat.succ_pred_eq_of_pos hM).symm⟩
      rw [hM']
      simp only [Nat.add_sub_cancel]
      rfl

theorem snapWeekdayF_lower (best? : Option ℕ) : ∀ (fuel : ℕ) (d : Date), d.Valid →
    (snapWeekdayF best? fuel d).Valid
      ∧ d.toOrd ≤ (snapWeekdayF best? fuel d).toOrd
      ∧ (snapWeekdayF best? fuel d).toOrd ≤ d.toOrd + fuel := by
  intro fuel
  induction fuel with
  | zero =>
    intro d hd
    have he : snapWeekdayF best? 0 d = d := rfl
    rw [he]
    exact ⟨hd, le_refl _, by omega⟩
  | succ fuel ih =>
    intro d hd
    cases best? with
    | none =>
      have he : snapWeekdayF none (fuel + 1) d = d := rfl
      rw [he]
      exact ⟨hd, le_refl _, by omega⟩
    | some b =>
      by_cases hw : d.weekday = b
      · have he : snapWeekdayF (some b) (fuel + 1) d = d := by
          show (if d.weekday = b then d else snapWeekdayF (some b) fuel (addDays d 1)) = d
          rw [if_pos hw]
        rw [he]
        exact ⟨hd, le_refl _, by omega⟩
      · have he : snapWeekdayF (some b) (fuel + 1) d
            = snapWeekdayF (some b) fuel (addDays d 1) := by
          show (if d.weekday = b then d else snapWeekdayF (some b) fuel (addDays d 1)) = _
          rw [if_neg hw]
        rw [he]
        obtain ⟨h1, h2, h3⟩ := ih (addDays d 1) (valid_addDays hd 1)
        have ht : (addDays d 1).toOrd = d.toOrd + 1 := toOrd_addDays hd 1
        exact ⟨h1, by omega, by omega⟩

theorem snap_weekday_lower (best? : Option ℕ) (d : Date) (hd : d.Valid) :
    (snap_weekday best? d).Valid
      ∧ d.toOrd ≤ (snap_weekday best? d).toOrd
      ∧ (snap_weekday best? d).toOrd ≤ d.toOrd + 7 :=
  snapWeekdayF_lower best? 7 d hd

theorem detCatchF_total (gap : ℤ) (hg : 1 ≤ gap) (best? : Option ℕ) (startD : Date) :
    ∀ (fuel : ℕ) (d : Date), d.Valid → startD.toOrd ≤ d.toOrd + fuel →
    ∃ r, detCatchF gap best? startD fuel d = some r ∧ r.Valid ∧ startD.toOrd ≤ r.toOrd := by
  intro fuel
  induction fuel with
  | zero =>
    intro d hd hb
    show ∃ r, (if startD.toOrd ≤ d.toOrd then some d else none) = some r ∧ _
    rw [if_pos (by omega)]
    exact ⟨d, rfl, hd, by omega⟩
  | succ fuel ih =>
    intro d hd hb
    show ∃ r, (if d.toOrd < startD.toOrd then
        detCatchF gap best? startD fuel (snap_weekday best? (addDaysI d gap))
      else some d) = some r ∧ _
    by_cases hlt : d.toOrd < startD.toOrd
    · rw [if_pos hlt]
      have hga : addDaysI d gap = addDays d gap.toNat := by
        unfold addDaysI
        rw [if_pos (by omega)]
      have hv1 : (addDays d gap.toNat).Valid := valid_addDays hd _
      have ht1 : (addDays d gap.toNat).toOrd = d.toOrd + gap.toNat := toOrd_addDays hd _
      rw [hga]
      obtain ⟨hv2, hl2, _⟩ := snap_weekday_lower best? (addDays d gap.toNat) hv1
      exact ih (snap_weekday best? (addDays d gap.toNat)) hv2 (by omega)
    · rw [if_neg hlt]
      exact ⟨d, rfl, hd, by omega⟩

theorem detEmitF_total (gap : ℤ) (hg : 1 ≤ gap) (best? : Option ℕ) (endD : Date) :
    ∀ (fuel : ℕ) (d : Date), d.Valid → endD.toOrd + 1 ≤ d.toOrd + fuel →
    ∃ ds, detEmitF gap best? endD fuel d = some ds := by
  intro fuel
  induction fuel with
  | zero =>
    intro d hd hb
    show ∃ ds, (if endD.toOrd < d.toOrd then some [] else none) = some ds
    rw [if_pos (by omega)]
    exact ⟨[], rfl⟩
  | succ fuel ih =>
    intro d hd hb
    by_cases hle : d.toOrd ≤ endD.toOrd
    · have hga : addDaysI d gap = addDays d gap.toNat := by
        unfold addDaysI
        rw [if_pos (by omega)]
      have hv1 : (addDays d gap.toNat).Valid := valid_addDays hd _
      have ht1 : (addDays d gap.toNat).toOrd = d.toOrd + gap.toNat := toOrd_addDays hd _
      obtain ⟨hv2, hl2, _⟩ := snap_weekday_lower best? (addDays d gap.toNat) hv1
      obtain ⟨ds, hds⟩ := ih (snap_weekday best? (addDays d gap.toNat)) hv2 (by omega)
      refine ⟨d :: ds, ?_⟩
      show (if d.toOrd ≤ endD.toOrd then
          match detEmitF gap best? endD fuel (snap_weekday best? (addDaysI d gap)) with
          | some rest => some (d :: rest)
          | none => none
        else some []) = some (d :: ds)
      rw [if_pos hle, hga, hds]
    · refine ⟨[], ?_⟩
      show (if d.toOrd ≤ endD.toOrd then
          match detEmitF gap best? endD fuel (snap_weekday best? (addDaysI d gap)) with
          | some rest => some (d :: rest)
          | none => none
        else some []) = some []
      rw [if_neg hle]

theorem mcClampGap_ge_one (g : ℚ) : 1 ≤ mcClampGap g := by
  unfold mcClampGap pyRound
  have hx : (1 : ℚ) ≤ min (max 1 g) 30 := le_min (le_max_left 1 g) (by norm_num)
  have hf : (1 : ℤ) ≤ ⌊min (max 1 g) 30⌋ := Int.le_floor.mpr (by exact_mod_cast hx)
  split_ifs <;> omega

theorem mcStep_lower (wp : Option (List ℚ)) (gapDraw : ℕ → ℚ) (wdDraw : ℕ → Fin 7)
    (i : ℕ) (current : Date) (hc : current.Valid) :
    (mcStep wp gapDraw wdDraw i current).Valid
      ∧ current.toOrd + 1 ≤ (mcStep wp gapDraw wdDraw i current).toOrd := by
  have hg : 1 ≤ (mcClampGap (gapDraw i)).toNat := by
    have := mcClampGap_ge_one (gapDraw i)
    omega
  have hv1 : (addDays current (mcClampGap (gapDraw i)).toNat).Valid := valid_addDays hc _
  have ht1 : (addDays current (mcClampGap (gapDraw i)).toNat).toOrd
      = current.toOrd + (mcClampGap (gapDraw i)).toNat := toOrd_addDays hc _
  cases wp with
  | none =>
    have he : mcStep none gapDraw wdDraw i current
        = addDays current (mcClampGap (gapDraw i)).toNat := rfl
    rw [he]
    exact ⟨hv1, by omega⟩
  | some l =>
    have he : mcStep (some l) gapDraw wdDraw i current
        = snap_weekday (some (wdDraw i).val)
          (addDays current (mcClampGap (gapDraw i)).toNat) := rfl
    rw [he]
    obtain ⟨hv2, hl2, _⟩ := snap_weekday_lower (some (wdDraw i).val)
      (addDays current (mcClampGap (gapDraw i)).toNat) hv1
    exact ⟨hv2, by omega⟩

theorem mcPathF_total (wp : Option (List ℚ)) (hasMS : Bool) (median : ℚ)
    (gapDraw : ℕ → ℚ) (wdDraw : ℕ → Fin 7) (lognormDraw noiseDraw : ℕ → ℚ)
    (startD endD : Date) :
    ∀ (fuel i : ℕ) (current : Date) (row : List ℚ), current.Valid →
    1 ≤ fuel → endD.toOrd + 1 ≤ current.toOrd + fuel →
    ∃ res, mcPathF wp hasMS median gapDraw wdDraw lognormDraw noiseDraw startD endD
      fuel i current row = some res := by
  intro fuel
  induction fuel with
  | zero => intro i c row hc h1 h2; omega
  | succ fuel ih =>
    intro i c row hc h1 h2
    obtain ⟨hv, hl⟩ := mcStep_lower wp gapDraw wdDraw i c hc
    by_cases hend : endD.toOrd < (mcStep wp gapDraw wdDraw i c).toOrd
    · refine ⟨row, ?_⟩
      show (if endD.toOrd < (mcStep wp gapDraw wdDraw i c).toOrd then some row
        else if (mcStep wp gapDraw wdDraw i c).toOrd < startD.toOrd then
          mcPathF wp hasMS median gapDraw wdDraw lognormDraw noiseDraw startD endD fuel
            (i + 1) (mcStep wp gapDraw wdDraw i c) row
        else
          mcPathF wp hasMS median gapDraw wdDraw lognormDraw noiseDraw startD endD fuel
            (i + 1) (mcStep wp gapDraw wdDraw i c)
            (row.set ((mcStep wp gapDraw wdDraw i c).toOrd - startD.toOrd)
              (row.getD ((mcStep wp gapDraw wdDraw i c).toOrd - startD.toOrd) 0
                + (if hasMS then lognormDraw i else median * (1 + noiseDraw i)))))
        = some row
      rw [if_pos hend]
    · have hf1 : 1 ≤ fuel := by omega
      have hf2 : endD.toOrd + 1 ≤ (mcStep wp gapDraw wdDraw i c).toOrd + fuel := by omega
      by_cases hstart : (mcStep wp gapDraw wdDraw i c).toOrd < startD.toOrd
      · obtain ⟨res, hres⟩ := ih (i + 1) (mcStep wp gapDraw wdDraw i c) row hv hf1 hf2
        refine ⟨res, ?_⟩
        show (if endD.toOrd < (mcStep wp gapDraw wdDraw i c).toOrd then some row
          else if (mcStep wp gapDraw wdDraw i c).toOrd < startD.toOrd then
            mcPathF wp hasMS median gapDraw wdDraw lognormDraw noiseDraw startD endD fuel
              (i + 1) (mcStep wp gapDraw wdDraw i c) row
          else
            mcPathF wp hasMS median gapDraw wdDraw lognormDraw noiseDraw startD endD fuel
              (i + 1) (mcStep wp gapDraw wdDraw i c)
              (row.set ((mcStep wp gapDraw wdDraw i c).toOrd - startD.toOrd)
                (row.getD ((mcStep wp gapDraw wdDraw i c).toOrd - startD.toOrd) 0
                  + (if hasMS then lognormDraw i else median * (1 + noiseDraw i)))))
          = some res
        rw [if_neg hend, if_pos hstart]
        exact hres
      · obtain ⟨res, hres⟩ := ih (i + 1) (mcStep wp gapDraw wdDraw i c)
          (row.set ((mcStep wp gapDraw wdDraw i c).toOrd - startD.toOrd)
            (row.getD ((mcStep wp gapDraw wdDraw i c).toOrd - startD.toOrd) 0
              + (if hasMS then lognormDraw i else median * (1 + noiseDraw i)))) hv hf1 hf2
        refine ⟨res, ?_⟩
        show (if endD.toOrd < (mcStep wp gapDraw wdDraw i c).toOrd then some row
          else if (mcStep wp gapDraw wdDraw i c).toOrd < startD.toOrd then
            mcPathF wp hasMS median gapDraw wdDraw lognormDraw noiseDraw startD endD fuel
              (i + 1) (mcStep wp gapDraw wdDraw i c) row
          else
            mcPathF wp hasMS median gapDraw wdDraw lognormDraw noiseDraw startD endD fuel
              (i + 1) (mcStep wp gapDraw wdDraw i c)
              (row.set ((mcStep wp gapDraw wdDraw i c).toOrd - startD.toOrd)
                (row.getD ((mcStep wp gapDraw wdDraw i c).toOrd - startD.toOrd) 0
                  + (if hasMS then lognormDraw i else median * (1 + noiseDraw i)))))
          = some res
        rw [if_neg hend, if_neg hstart]
        exact hres

/-- C10: `forecast_irregular` terminates on every finite window.  In
deterministic mode, under the precondition `avg_gap_days ≥ 0`, the per-step
gap `detGapDays` is at least one day (ceil of a positive average, or 7 when
the average is zero or missing) and weekday snapping adds at most 6 further
days while staying on or after its input, so the catch-up and emission
loops exit within the stated fuel; in Monte Carlo mode every step's gap is
clamped to at least one day, so each simulated path exits the window within
the fuel `forecastMC` supplies. -/
theorem C10_forecast_termination :
    (∀ avg : ℚ, 0 ≤ avg → 1 ≤ detGapDays avg)
    ∧ (∀ g : ℚ, 1 ≤ mcClampGap g)
    ∧ (∀ b : ℕ, b < 7 → ∀ d : Date, d.Valid →
      snap_weekday (some b) d = addDays d ((b + 7 - d.weekday) % 7)
        ∧ d.toOrd ≤ (snap_weekday (some b) d).toOrd
        ∧ (snap_weekday (some b) d).toOrd ≤ d.toOrd + 6
        ∧ (snap_weekday (some b) d).weekday = b)
    ∧ (∀ (gap : ℤ) (best? : Option ℕ) (startD d : Date) (fuel : ℕ), 1 ≤ gap → d.Valid →
      startD.toOrd ≤ d.toOrd + fuel →
      ∃ r, detCatchF gap best? startD fuel d = some r)
    ∧ (∀ (gap : ℤ) (best? : Option ℕ) (endD d : Date) (fuel : ℕ), 1 ≤ gap → d.Valid →
      endD.toOrd + 1 ≤ d.toOrd + fuel →
      ∃ ds, detEmitF gap best? endD fuel d = some ds)
    ∧ (∀ (wp : Option (List ℚ)) (hasMS : Bool) (median : ℚ) (gapDraw : ℕ → ℚ)
        (wdDraw : ℕ → Fin 7) (lognormDraw noiseDraw : ℕ → ℚ) (startD endD : Date)
        (i : ℕ) (c : Date) (row : List ℚ), c.Valid →
      ∃ res, mcPathF wp hasMS median gapDraw wdDraw lognormDraw noiseDraw startD endD
        ((endD.toOrd + 1 - c.toOrd) + 1) i c row = some res) := by
  refine ⟨?_, mcClampGap_ge_one, ?_, ?_, ?_, ?_⟩
  · intro avg h
    unfold detGapDays
    split_ifs with hne
    · have hpos : 0 < avg := lt_of_le_of_ne h (Ne.symm hne)
      have hc := Int.ceil_pos.mpr hpos
      omega
    · norm_num
  · intro b hb d hd
    have hwd : d.weekday < 7 := by unfold Date.weekday; omega
    have hm : (b + 7 - d.weekday) % 7 < 7 := by omega
    have he : snap_weekday (some b) d = addDays d ((b + 7 - d.weekday) % 7) :=
      snapWeekdayF_reach 7 d hd b hb hm
    refine ⟨he, ?_, ?_, ?_⟩
    · rw [he, toOrd_addDays hd]
      omega
    · rw [he, toOrd_addDays hd]
      omega
    · rw [he, weekday_addDays hd]
      omega
  · intro gap best? startD d fuel hg hd hb
    obtain ⟨r, hr, _⟩ := detCatchF_total gap hg best? startD fuel d hd hb
    exact ⟨r, hr⟩
  · intro gap best? endD d fuel hg hd hb
    exact detEmitF_total gap hg best? endD fuel d hd hb
  · intro wp hasMS median gapDraw wdDraw lognormDraw noiseDraw startD endD i c row hc
    exact mcPathF_total wp hasMS median gapDraw wdDraw lognormDraw noiseDraw startD endD
      _ i c row hc (by omega) (by omega)

/-- C10, witnessed at a concrete gap, clamp, snap and three concrete loop
runs over small windows. -/
theorem C10_forecast_termination_witness :
    (1 ≤ detGapDays 2)
    ∧ (1 ≤ mcClampGap 0)
    ∧ (snap_weekday (some 0) ⟨2023, 1, 4⟩
          = addDays ⟨2023, 1, 4⟩ ((0 + 7 - (⟨2023, 1, 4⟩ : Date).weekday) % 7)
        ∧ (⟨2023, 1, 4⟩ : Date).toOrd ≤ (snap_weekday (some 0) ⟨2023, 1, 4⟩).toOrd
        ∧ (snap_weekday (some 0) ⟨2023, 1, 4⟩).toOrd ≤ (⟨2023, 1, 4⟩ : Date).toOrd + 6
        ∧ (snap_weekday (some 0) ⟨2023, 1, 4⟩).weekday = 0)
    ∧ (∃ r, detCatchF 1 none ⟨2023, 1, 3⟩ 3 ⟨2023, 1, 1⟩ = some r)
    ∧ (∃ ds, detEmitF 1 none ⟨2023, 1, 3⟩ 4 ⟨2023, 1, 1⟩ = some ds)
    ∧ (∃ res, mcPathF none false 0 (fun _ => 1) (fun _ => 0) (fun _ => 0) (fun _ => 0)
        ⟨2023, 1, 1⟩ ⟨2023, 1, 2⟩
        (((⟨2023, 1, 2⟩ : Date).toOrd + 1 - (⟨2023, 1, 1⟩ : Date).toOrd) + 1)
        0 ⟨2023, 1, 1⟩ [0, 0] = some res) :=
  ⟨C10_forecast_termination.1 2 (by norm_num),
    C10_forecast_termination.2.1 0,
    C10_forecast_termination.2.2.1 0 (by norm_num) ⟨2023, 1, 4⟩ (by decide),
    C10_forecast_termination.2.2.2.1 1 none ⟨2023, 1, 3⟩ ⟨2023, 1, 1⟩ 3 (by norm_num)
      (by decide) (by decide),
    C10_forecast_termination.2.2.2.2.1 1 none ⟨2023, 1, 3⟩ ⟨2023, 1, 1⟩ 4 (by norm_num)
      (by decide) (by decide),
    C10_forecast_termination.2.2.2.2.2 none false 0 (fun _ => 1) (fun _ => 0) (fun _ => 0)
      (fun _ => 0) ⟨2023, 1, 1⟩ ⟨2023, 1, 2⟩ 0 ⟨2023, 1, 1⟩ [0, 0] (by decide)⟩
